import Mathlib

/-!
Verification development for the strudel manifest builder
(`create-json.py`).  The classification engine is embedded shallowly:
strings are `List Char`, the three fixed regular expressions are
translated into explicit scanning functions with the exact
backtracking behaviour of the Python `re` engine on those patterns,
Python dicts are insertion-ordered association lists, and the single
per-file crash site (`list.append` attempted on a dict-shaped bucket)
is made explicit with `Except`.  Directory traversal, argument parsing
and JSON printing are the spec's external collaborators; the engine is
modelled as a function of the list of discovered relative paths.
Character classes (`\d`, `[^A-Za-z]`, `str.lower`) are modelled on the
ASCII alphabet, which is the alphabet all claims range over.
-/

/-- Strings are modelled as lists of characters. -/
abbrev Str := List Char

/-- Coerce a Lean string literal to the model's string type. -/
def strL (s : String) : Str := s.toList

/-- ASCII lowercasing of one character (models `str.lower`). -/
def lcChar (c : Char) : Char :=
  if 'A' ≤ c ∧ c ≤ 'Z' then Char.ofNat (c.toNat + 32) else c

/-- ASCII lowercasing of a string (source: `lc`). -/
def lc (s : Str) : Str := s.map lcChar

/-- Membership in the regex class `[ _\-]` (tempo/key token delimiters). -/
def isDelim (c : Char) : Bool := c = ' ' ∨ c = '_' ∨ c = '-'

/-- Membership in the regex class `\d` (ASCII digits, code points 48
to 57). -/
def isDig (c : Char) : Bool := 48 ≤ c.toNat ∧ c.toNat ≤ 57

/-- Membership in the regex class `[A-Za-z]`. -/
def isAsciiLetter (c : Char) : Bool :=
  ('A' ≤ c ∧ c ≤ 'Z') ∨ ('a' ≤ c ∧ c ≤ 'z')

/-- Membership in the regex class `[A-Za-z0-9]`. -/
def isAsciiAlnum (c : Char) : Bool := isAsciiLetter c ∨ isDig c

/-- Membership in the regex class `[A-Ga-g]` (pitch letters). -/
def isKeyLetter (c : Char) : Bool :=
  ('A' ≤ c ∧ c ≤ 'G') ∨ ('a' ≤ c ∧ c ≤ 'g')

/-- Membership in the regex class `[#b]` (accidentals). -/
def isAcc (c : Char) : Bool := c = '#' ∨ c = 'b'

/-- Membership in the class `[a-z0-9]` kept verbatim by `slug`. -/
def isLowerAlnum (c : Char) : Bool :=
  ('a' ≤ c ∧ c ≤ 'z') ∨ ('0' ≤ c ∧ c ≤ '9')

/-- Fuelled worker for `collapseNon`; the fuel only serves structural
recursion and is irrelevant once it covers the input length. -/
def collapseNonF : Nat → Str → Str
  | 0, _ => []
  | _ + 1, [] => []
  | fuel + 1, c :: t =>
    if isLowerAlnum c then c :: collapseNonF fuel t
    else '_' :: collapseNonF fuel (t.dropWhile (fun d => ! isLowerAlnum d))

/-- Replace every maximal run of characters outside `[a-z0-9]` by one
underscore (the `re.sub` inside the source's `slug`). -/
def collapseNon (s : Str) : Str := collapseNonF s.length s

/-- The fuel of `collapseNonF` is irrelevant once sufficient. -/
theorem collapseNonF_congr :
    ∀ f₁ f₂ s, s.length ≤ f₁ → s.length ≤ f₂ → collapseNonF f₁ s = collapseNonF f₂ s := by
  intro f₁
  induction f₁ with
  | zero =>
    intro f₂ s h1 _
    have : s = [] := List.length_eq_zero.mp (Nat.le_zero.mp h1)
    subst this
    cases f₂ <;> rfl
  | succ f ih =>
    intro f₂ s h1 h2
    match s with
    | [] => cases f₂ <;> rfl
    | c :: t =>
      match f₂, h2 with
      | f₂ + 1, h2 =>
        simp only [collapseNonF]
        have hd := (List.dropWhile_suffix (l := t) (fun d => ! isLowerAlnum d)).sublist.length_le
        simp only [List.length_cons] at h1 h2
        split
        · rw [ih f₂ t (by omega) (by omega)]
        · rw [ih f₂ (t.dropWhile (fun d => ! isLowerAlnum d)) (by omega) (by omega)]

/-- Unfolding equation of `collapseNon` on a cons cell. -/
theorem collapseNon_cons (c : Char) (t : Str) :
    collapseNon (c :: t) =
      if isLowerAlnum c then c :: collapseNon t
      else '_' :: collapseNon (t.dropWhile (fun d => ! isLowerAlnum d)) := by
  have hd := (List.dropWhile_suffix (l := t) (fun d => ! isLowerAlnum d)).sublist.length_le
  simp only [collapseNon, List.length_cons, collapseNonF]
  split
  · rfl
  · rw [collapseNonF_congr t.length (t.dropWhile (fun d => ! isLowerAlnum d)).length
      (t.dropWhile (fun d => ! isLowerAlnum d)) (by omega) (by omega)]

/-- Strip leading and trailing underscores (Python `str.strip("_")`). -/
def stripUnders (l : Str) : Str :=
  ((l.dropWhile (fun c => c = '_')).reverse.dropWhile (fun c => c = '_')).reverse

/-- Source `slug`: lowercase, collapse non-alphanumeric runs to `_`,
strip outer underscores. -/
def slug (s : Str) : Str := stripUnders (collapseNon (lc s))

/-- Split a POSIX path on `/` (Python `str.split("/")`; empty segments
are kept and the result is never empty). -/
def splitSlash : Str → List Str
  | [] => [[]]
  | c :: t =>
    if c = '/' then [] :: splitSlash t
    else
      match splitSlash t with
      | s :: ss => (c :: s) :: ss
      | [] => [[c]]

/-- Last `/`-separated segment of a relative path (Python `Path.name`
for the paths produced by the scan). -/
def lastSeg (rel : Str) : Str := (splitSlash rel).foldl (fun _ s => s) []

/-- Python `Path.stem` on a file name: drop the suffix that starts at
the last dot, provided that dot is neither the first nor the last
character of the name. -/
def stemOfName (name : Str) : Str :=
  let rev := name.reverse
  let k := (rev.takeWhile (fun c => c ≠ '.')).length
  if 1 ≤ k ∧ k + 1 < rev.length then (rev.drop (k + 1)).reverse else name

/-- Python `Path.suffix` on a file name (empty when there is none). -/
def suffixOfName (name : Str) : Str :=
  let rev := name.reverse
  let k := (rev.takeWhile (fun c => c ≠ '.')).length
  if 1 ≤ k ∧ k + 1 < rev.length then '.' :: (rev.takeWhile (fun c => c ≠ '.')).reverse
  else []

/-- Stem of the file at a relative path (`p.stem` in the main loop). -/
def stemOfPath (rel : Str) : Str := stemOfName (lastSeg rel)

/-- The fixed allow-set of audio extensions (source `AUDIO_EXTS`). -/
def AUDIO_EXTS : List Str :=
  [strL ".wav", strL ".aif", strL ".aiff", strL ".flac", strL ".mp3", strL ".ogg"]

/-- Extension filter of `walk_audio`: `p.suffix.lower() in AUDIO_EXTS`. -/
def isAudioPath (rel : Str) : Bool := lc (suffixOfName (lastSeg rel)) ∈ AUDIO_EXTS

/-- First-match lookup in an insertion-ordered association list
(Python dict lookup; keys are unique in every dict the engine builds). -/
def aget (l : List (Str × α)) (k : Str) : Option α :=
  match l with
  | [] => none
  | (k', v) :: t => if k' = k then some v else aget t k

/-- Python dict assignment: replace in place when the key exists,
append at the end otherwise. -/
def aset (l : List (Str × α)) (k : Str) (v : α) : List (Str × α) :=
  match l with
  | [] => [(k, v)]
  | (k', v') :: t => if k' = k then (k', v) :: t else (k', v') :: aset t k v

/-- The fixed 5-entry enharmonic table (source `SHARP2FLAT`). -/
def SHARP2FLAT : List (Str × Str) :=
  [(strL "c#", strL "db"), (strL "d#", strL "eb"), (strL "f#", strL "f#"),
   (strL "g#", strL "ab"), (strL "a#", strL "bb")]

/-- Does the string end in a given character (Python `str.endswith` on
a one-character suffix)? -/
def endsWith1 (s : Str) (c : Char) : Bool := s.getLast? = some c

/-- Source `normalize_note`: lowercase; a trailing sharp is sent
through `SHARP2FLAT` (defaulting to the input itself when absent from
the table); anything else is returned unchanged. -/
def normalize_note (note : Str) : Str :=
  let n := lc note
  if endsWith1 n '#' then
    match aget SHARP2FLAT n with
    | some v => v
    | none => n
  else n

/-- Decimal rendering of a number, Python `str(int)` for the naturals
the engine produces. -/
def natStr (n : Nat) : Str := (Nat.repr n).toList

/-- Numeric value of a digit string, Python `int` on the captured
group of ASCII digits. -/
def digitsToNat (ds : Str) : Nat := ds.foldl (fun n c => 10 * n + (c.toNat - 48)) 0

/-! ### The tempo regex `(?:^|[ _\-])(\d{2,3})(?=$|[ _\-])` -/

/-- Lookahead `(?=$|[ _\-])` of the tempo regex. -/
def bpmLook : Str → Bool
  | [] => true
  | c :: _ => isDelim c

/-- Match the `(\d{2,3})(?=$|[ _\-])` part at the head of the input:
the greedy three-digit try first, then the two-digit backtrack.
Returns the captured digits and the remaining input. -/
def bpmTry : Str → Option (Str × Str)
  | [] => none
  | [_] => none
  | [d1, d2] => if isDig d1 ∧ isDig d2 then some ([d1, d2], []) else none
  | d1 :: d2 :: d3 :: rest =>
    if isDig d1 ∧ isDig d2 then
      if isDig d3 ∧ bpmLook rest then some ([d1, d2, d3], rest)
      else if isDelim d3 then some ([d1, d2], d3 :: rest)
      else none
    else none

/-- Length accounting for `bpmTry`, used for termination. -/
theorem bpmTry_length {l ds r : Str} (h : bpmTry l = some (ds, r)) :
    r.length < l.length := by
  match l with
  | [] => simp [bpmTry] at h
  | [d1] => simp [bpmTry] at h
  | [d1, d2] =>
    rw [bpmTry] at h
    split at h
    · cases h; simp
    · cases h
  | d1 :: d2 :: d3 :: rest =>
    rw [bpmTry] at h
    split at h
    · split at h
      · cases h; simp only [List.length_cons]; omega
      · split at h
        · cases h; simp only [List.length_cons]; omega
        · cases h
    · cases h

/-- Fuelled worker for `bpmScan`; the fuel only serves structural
recursion and is irrelevant once it covers the input length. -/
def bpmScanF : Nat → Str → List Str
  | 0, _ => []
  | _ + 1, [] => []
  | fuel + 1, c :: rest =>
    if isDelim c then
      match bpmTry rest with
      | some (ds, r2) => ds :: bpmScanF fuel r2
      | none => bpmScanF fuel rest
    else bpmScanF fuel rest

/-- The `finditer` scan of the tempo regex over all start positions
past the first: at each position a delimiter may be consumed as the
left boundary, and after a match the scan resumes at the match end. -/
def bpmScan (s : Str) : List Str := bpmScanF s.length s

/-- The fuel of `bpmScanF` is irrelevant once sufficient. -/
theorem bpmScanF_congr :
    ∀ f₁ f₂ s, s.length ≤ f₁ → s.length ≤ f₂ → bpmScanF f₁ s = bpmScanF f₂ s := by
  intro f₁
  induction f₁ with
  | zero =>
    intro f₂ s h1 _
    have : s = [] := List.length_eq_zero.mp (Nat.le_zero.mp h1)
    subst this
    cases f₂ <;> rfl
  | succ f ih =>
    intro f₂ s h1 h2
    match s with
    | [] => cases f₂ <;> rfl
    | c :: rest =>
      match f₂, h2 with
      | f₂ + 1, h2 =>
        simp only [List.length_cons] at h1 h2
        simp only [bpmScanF]
        split
        · split
          · rename_i ds r2 htry
            have := bpmTry_length htry
            rw [ih f₂ r2 (by omega) (by omega)]
          · rw [ih f₂ rest (by omega) (by omega)]
        · rw [ih f₂ rest (by omega) (by omega)]

/-- Unfolding equation of `bpmScan` on a cons cell. -/
theorem bpmScan_cons (c : Char) (rest : Str) :
    bpmScan (c :: rest) =
      if isDelim c then
        match bpmTry rest with
        | some (ds, r2) => ds :: bpmScan r2
        | none => bpmScan rest
      else bpmScan rest := by
  simp only [bpmScan, List.length_cons, bpmScanF]
  split
  · split
    · rename_i ds r2 htry
      have := bpmTry_length htry
      rw [bpmScanF_congr rest.length r2.length r2 (by omega) (by omega)]
    · rfl
  · rfl


/-- Full `finditer` of the tempo regex: at position 0 the `^`
alternative is tried before the delimiter alternative. -/
def bpmFinditer (s : Str) : List Str :=
  match bpmTry s with
  | some (ds, r2) => ds :: bpmScan r2
  | none => bpmScan s

/-- Source `get_bpm`: all tempo-token captures, filtered to `[40,200)`,
last survivor or none. -/
def get_bpm (stem : Str) : Option Nat :=
  let s := lc stem
  let cands := (bpmFinditer s).map digitsToNat
  (cands.filter (fun b => 40 ≤ b ∧ b < 200)).getLast?

/-! ### Generic leftmost search for the two key grammars

Both key regexes have the shape `(?:^|CLASS) CORE`: at start position
0 the engine first tries the zero-width `^` alternative and then a
boundary character of `CLASS`; at every later position only the
boundary alternative applies.  `reSearch` is `re.search` specialised
to that shape. -/

/-- Scan for the leftmost boundary position whose core attempt
succeeds (all start positions from 1 on; position `i` of the scanned
suffix consumes its head as the boundary character). -/
def reScan (bnd : Char → Bool) (core : Str → Option α) : Str → Option α
  | [] => none
  | c :: rest =>
    if bnd c then
      match core rest with
      | some m => some m
      | none => reScan bnd core rest
    else reScan bnd core rest

/-- Python `re.search` for a pattern `(?:^|CLASS) CORE`. -/
def reSearch (bnd : Char → Bool) (core : Str → Option α) (s : Str) : Option α :=
  match core s with
  | some m => some m
  | none => reScan bnd core s

/-! ### The octave key regex
`(?:^|[^A-Za-z])([A-Ga-g])([#b]?)(\d)(?=[^A-Za-z0-9]|$)` -/

/-- The boundary class `[^A-Za-z]` of the octave grammar. -/
def kwoBnd (c : Char) : Bool := ¬ isAsciiLetter c

/-- Lookahead `(?=[^A-Za-z0-9]|$)` of the octave grammar. -/
def kwoLook : Str → Bool
  | [] => true
  | c :: _ => ¬ isAsciiAlnum c

/-- Core `([A-Ga-g])([#b]?)(\d)(?=...)` of the octave grammar at the
head of the input; the optional accidental is greedy, and on lookahead
failure the engine backtracks to the accidental-free parse. -/
def kwoCore : Str → Option (Char × Option Char × Char)
  | c :: a :: d :: rest =>
    if isKeyLetter c then
      if isAcc a ∧ isDig d ∧ kwoLook rest then some (c, some a, d)
      else if isDig a ∧ kwoLook (d :: rest) then some (c, none, a)
      else none
    else none
  | [c, a] =>
    if isKeyLetter c ∧ isDig a then some (c, none, a) else none
  | _ => none

/-! ### The bare key regex
`(?:^|[ _\-])([A-Ga-g])([#b]?)(maj|min|m)?(?=$|[ _\-\d])` -/

/-- Lookahead `(?=$|[ _\-\d])` of the bare grammar. -/
def ktLook : Str → Bool
  | [] => true
  | c :: _ => isDelim c ∨ isDig c

/-- The optional quality group `(maj|min|m)?` followed by the
lookahead, with the regex engine's alternative order `maj`, `min`,
`m`, empty.  `some q` is a successful parse capturing `q`; `none`
means every alternative failed its lookahead. -/
def ktQual (l : Str) : Option (Option Str) :=
  if (strL "maj").isPrefixOf l ∧ ktLook (l.drop 3) then some (some (strL "maj"))
  else if (strL "min").isPrefixOf l ∧ ktLook (l.drop 3) then some (some (strL "min"))
  else if (strL "m").isPrefixOf l ∧ ktLook (l.drop 1) then some (some (strL "m"))
  else if ktLook l then some none
  else none

/-- Core `([A-Ga-g])([#b]?)(maj|min|m)?(?=...)` of the bare grammar at
the head of the input, with greedy accidental and backtracking. -/
def ktCore : Str → Option (Char × Option Char × Option Str)
  | [] => none
  | c :: rest =>
    if isKeyLetter c then
      match rest with
      | a :: rest2 =>
        if isAcc a then
          match ktQual rest2 with
          | some q => some (c, some a, q)
          | none =>
            match ktQual rest with
            | some q => some (c, none, q)
            | none => none
        else
          match ktQual rest with
          | some q => some (c, none, q)
          | none => none
      | [] => some (c, none, none)
    else none

/-- The structured key feature produced by `get_key`. -/
structure KeyInfo where
  root : Str
  minor : Bool
  oct : Option Nat
deriving DecidableEq, Repr

/-- Numeric value of one ASCII digit (Python `int` on group 3). -/
def digitVal (c : Char) : Nat := c.toNat - 48

/-- Python `qual in ("m","min")` on the captured quality group
(`m.group(3) or ""`). -/
def qualMinor (q : Option Str) : Bool :=
  let qs := match q with | some x => x | none => []
  qs = strL "m" ∨ qs = strL "min"

/-- Source `get_key`: the octave grammar is searched first and wins
with `minor=False` and the matched octave digit; otherwise the bare
grammar is searched; otherwise none. -/
def get_key (stem : Str) : Option KeyInfo :=
  let s := lc stem
  match reSearch kwoBnd kwoCore s with
  | some (c, a, d) =>
    some ⟨normalize_note (c :: a.toList), false, some (digitVal d)⟩
  | none =>
    match reSearch isDelim ktCore s with
    | some (c, a, q) =>
      some ⟨normalize_note (c :: a.toList), qualMinor q, none⟩
    | none => none

/-! ### Path classifiers -/

/-- Source `has_seg`: some slash-delimited segment slugifies to the
given name. -/
def has_seg (rel name : Str) : Bool := (splitSlash rel).any (fun seg => slug seg = name)

/-- Source `is_loops_folder`. -/
def is_loops_folder (rel : Str) : Bool := has_seg rel (strL "loop") ∨ has_seg rel (strL "loops")

/-- Source `is_drums_loops`. -/
def is_drums_loops (rel : Str) : Bool := has_seg rel (strL "drums") ∧ is_loops_folder rel

/-- Source `DRUM_LOOP_GROUPS` lookup table. -/
def DRUM_LOOP_GROUPS : List (Str × Str) :=
  [(strL "breaks", strL "breaks"), (strL "claps", strL "claps"),
   (strL "shakers", strL "shakers"), (strL "woodblock", strL "woodblock"),
   (strL "woodblck", strL "woodblock")]

/-- Source `detect_drums_group`: first segment whose slug is in the
lookup, mapped through it. -/
def detect_drums_group (rel : Str) : Option Str :=
  (splitSlash rel).findSome? (fun seg => aget DRUM_LOOP_GROUPS (slug seg))

/-- Source `GENERIC_FOLDERS` stop-set. -/
def GENERIC_FOLDERS : List Str :=
  [strL "loops", strL "loop", strL "one shots", strL "oneshots", strL "one_shots",
   strL "samples", strL "audio", strL "stems", strL "custom", strL "customs",
   strL "sounds", strL "sound", strL "fx", strL "sfx", strL "effects", strL "drums"]

/-- Python `seg.replace("_", " ")` used before the stop-set test. -/
def underToSpace (s : Str) : Str := s.map (fun c => if c = '_' then ' ' else c)

/-- The loop over `reversed(segs[:-1])` in `guess_instrument`: skip
generic segments, singularize the first non-generic one (strip a
trailing `s` unless `ss`), empty result falls back to `inst`. -/
def pickInstr : List Str → Option Str
  | [] => none
  | seg :: rest =>
    if underToSpace seg ∈ GENERIC_FOLDERS then pickInstr rest
    else
      let seg' :=
        match seg.reverse with
        | 's' :: 's' :: _ => seg
        | 's' :: _ => seg.dropLast
        | _ => seg
      some (if seg' = [] then strL "inst" else seg')

/-- Source `guess_instrument`. -/
def guess_instrument (rel : Str) : Str :=
  let segs := (splitSlash rel).map slug
  match pickInstr segs.dropLast.reverse with
  | some i => i
  | none =>
    let t := (slug (stemOfPath rel)).takeWhile (fun c => c ≠ '_')
    if t = [] then strL "inst" else t

/-! ### Buckets, the per-file step, and the run -/

/-- A bucket value: Python's dynamically shaped `list | dict`. -/
inductive BVal where
  | lst : List Str → BVal
  | dict : List (Str × List Str) → BVal
deriving DecidableEq, Repr

/-- The bucket mapping (`buckets: dict[str, list|dict]`). -/
abbrev Buckets := List (Str × BVal)

/-- Append with the source's dedup guard
(`if rel not in xs: xs.append(rel)`). -/
def appendUnique (l : List Str) (x : Str) : List Str := if x ∈ l then l else l ++ [x]

/-- The loop-branch aggregation
`buckets.setdefault(key, []); if rel not in buckets[key]: buckets[key].append(rel)`.
On a dict-shaped bucket, `rel not in` is a key test and `.append` does
not exist: that is the engine's one crash site (AttributeError). -/
def loopAppend (d : Buckets) (k rel : Str) : Except Str Buckets :=
  match aget d k with
  | none => .ok (aset d k (.lst (appendUnique [] rel)))
  | some (.lst l) => .ok (aset d k (.lst (appendUnique l rel)))
  | some (.dict m) =>
    if rel ∈ m.map Prod.fst then .ok d else .error (strL "AttributeError")

/-- Source `ensure_map` applied to `buckets.get(keyname, {})`: a dict
passes through, a list is rehomed under `"unpitched"`, a missing
bucket gives the empty dict. -/
def ensure_map (b : Option BVal) : List (Str × List Str) :=
  match b with
  | some (.dict m) => m
  | some (.lst l) => [(strL "unpitched", l)]
  | none => []

/-- Dict-shaped aggregation
`m.setdefault(p, []); if rel not in m[p]: m[p].append(rel)`. -/
def dictAppend (m : List (Str × List Str)) (p rel : Str) : List (Str × List Str) :=
  match aget m p with
  | some pl => aset m p (appendUnique pl rel)
  | none => m ++ [(p, appendUnique [] rel)]

/-- One-shot branch with a key feature:
`buckets[keyname] = ensure_map(buckets.get(keyname, {}))` followed by
the pitched append. -/
def oneshotPitched (d : Buckets) (k pitch rel : Str) : Buckets :=
  aset d k (.dict (dictAppend (ensure_map (aget d k)) pitch rel))

/-- One-shot branch without a key feature: a dict-shaped bucket files
under `"unpitched"`, otherwise plain-list append. -/
def oneshotUnpitched (d : Buckets) (k rel : Str) : Buckets :=
  match aget d k with
  | some (.dict m) => aset d k (.dict (dictAppend m (strL "unpitched") rel))
  | some (.lst l) => aset d k (.lst (appendUnique l rel))
  | none => aset d k (.lst (appendUnique [] rel))

/-- The pitch label of a one-shot key feature:
`f"{keyi['root']}{keyi['oct'] if keyi['oct'] is not None else 4}"`. -/
def pitchOf (ki : KeyInfo) : Str :=
  ki.root ++ (match ki.oct with | some n => natStr n | none => strL "4")

/-- The loop-branch key label `keyi["root"] + ("m" if minor else "")`. -/
def loopKeyLabel (ki : KeyInfo) : Str :=
  ki.root ++ (if ki.minor then strL "m" else [])

/-- One iteration of the classification loop in `main`, for one
discovered file given as its relative path. -/
def step (pfx : Str) (d : Buckets) (rel : Str) : Except Str Buckets :=
  let stem := stemOfPath rel
  let bpm := get_bpm stem
  let keyi := get_key stem
  if is_loops_folder rel ∨ (bpm.isSome ∧ keyi.isSome) then
    match (if is_drums_loops rel then detect_drums_group rel else none) with
    | some grp =>
      loopAppend d
        (pfx ++ strL "_" ++ grp ++
          (match bpm with | some b => strL "_" ++ natStr b | none => [])) rel
    | none =>
      let key :=
        match bpm, keyi with
        | some b, some ki => pfx ++ strL "_" ++ natStr b ++ strL "_" ++ loopKeyLabel ki
        | some b, none => pfx ++ strL "_" ++ natStr b
        | _, _ => pfx ++ strL "_loops"
      loopAppend d key rel
  else
    let keyname := pfx ++ strL "_" ++ guess_instrument rel
    match keyi with
    | some ki => .ok (oneshotPitched d keyname (pitchOf ki) rel)
    | none => .ok (oneshotUnpitched d keyname rel)

/-- The whole classification loop over the discovered files, in
traversal order, stopping at the crash site if it is ever hit. -/
def runBuckets (pfx : Str) (files : List Str) : Except Str Buckets :=
  files.foldlM (fun d rel => step pfx d rel) []

/-! ### Deterministic assembly (sorting) -/

/-- Python string `<` (lexicographic by code point, a proper prefix is
smaller). -/
def strLt : Str → Str → Bool
  | _, [] => false
  | [], _ :: _ => true
  | a :: as_, b :: bs =>
    if a < b then true else if b < a then false else strLt as_ bs

/-- Stable insertion of one element into a list sorted by `strLt`. -/
def insSorted (x : Str) : List Str → List Str
  | [] => [x]
  | y :: ys => if strLt x y then x :: y :: ys else y :: insSorted x ys

/-- Python `sorted` on a list of strings (stable; the engine only
sorts duplicate-free lists, where every stable sort agrees). -/
def pySort (l : List Str) : List Str := l.foldr insSorted []

/-- Stable insertion of one key-value pair, ordered by key. -/
def insSortedBy (x : Str × α) : List (Str × α) → List (Str × α)
  | [] => [x]
  | y :: ys => if strLt x.1 y.1 then x :: y :: ys else y :: insSortedBy x ys

/-- Python `sorted(d.items())` (keys are unique, so only keys are ever
compared). -/
def pySortBy (l : List (Str × α)) : List (Str × α) := l.foldr insSortedBy []

/-- Source `sort_map`: `{k: sorted(v) for k, v in sorted(d.items())}`. -/
def sort_map (m : List (Str × List Str)) : List (Str × List Str) :=
  (pySortBy m).map (fun kv => (kv.1, pySort kv.2))

/-- A value of the final manifest: the `_base` string, a sorted plain
list, or a sorted pitch map. -/
inductive JVal where
  | str : Str → JVal
  | arr : List Str → JVal
  | obj : List (Str × List Str) → JVal
deriving DecidableEq, Repr

/-- Per-bucket part of the assembly:
`sort_map(v) if isinstance(v, dict) else sorted(v)`. -/
def sortedBVal : BVal → JVal
  | .lst l => .arr (pySort l)
  | .dict m => .obj (sort_map m)

/-- Final assembly: start from `{"_base": base}`, write every sorted
bucket, and emit `dict(sorted(manifest.items()))`. -/
def assemble (base : Str) (buckets : Buckets) : List (Str × JVal) :=
  let manifest :=
    buckets.foldl (fun man kv => aset man kv.1 (sortedBVal kv.2))
      [(strL "_base", JVal.str base)]
  pySortBy manifest

/-- The manifest produced by one invocation on a list of discovered
files, or the crash if classification raises. -/
def runManifest (pfx base : Str) (files : List Str) : Except Str (List (Str × JVal)) :=
  (runBuckets pfx files).map (assemble base)

/-! ### The per-file contribution, a pure function of the path -/

/-- What one file contributes: a loop-branch list append, a pitched
one-shot, or an unpitched one-shot, with the bucket key. -/
inductive Contrib where
  | loopC : Str → Contrib
  | pitchC : Str → Str → Contrib
  | unpitchC : Str → Contrib
deriving DecidableEq, Repr

/-- Bucket key of a contribution. -/
def Contrib.bkey : Contrib → Str
  | .loopC k => k
  | .pitchC k _ => k
  | .unpitchC k => k

/-- The classification decision of `step` as a pure per-file value. -/
def contribOf (pfx : Str) (rel : Str) : Contrib :=
  let stem := stemOfPath rel
  let bpm := get_bpm stem
  let keyi := get_key stem
  if is_loops_folder rel ∨ (bpm.isSome ∧ keyi.isSome) then
    match (if is_drums_loops rel then detect_drums_group rel else none) with
    | some grp =>
      .loopC (pfx ++ strL "_" ++ grp ++
        (match bpm with | some b => strL "_" ++ natStr b | none => []))
    | none =>
      .loopC
        (match bpm, keyi with
         | some b, some ki => pfx ++ strL "_" ++ natStr b ++ strL "_" ++ loopKeyLabel ki
         | some b, none => pfx ++ strL "_" ++ natStr b
         | _, _ => pfx ++ strL "_loops")
  else
    let keyname := pfx ++ strL "_" ++ guess_instrument rel
    match keyi with
    | some ki => .pitchC keyname (pitchOf ki)
    | none => .unpitchC keyname

/-- Apply one contribution to the bucket state (the aggregation part
of `step`). -/
def applyContrib (d : Buckets) (c : Contrib) (rel : Str) : Except Str Buckets :=
  match c with
  | .loopC k => loopAppend d k rel
  | .pitchC k p => .ok (oneshotPitched d k p rel)
  | .unpitchC k => .ok (oneshotUnpitched d k rel)

/-- The step function factors through the per-file contribution. -/
theorem step_eq_applyContrib (pfx : Str) (d : Buckets) (rel : Str) :
    step pfx d rel = applyContrib d (contribOf pfx rel) rel := by
  simp only [step, contribOf]
  split
  · split
    · simp [applyContrib]
    · split <;> simp [applyContrib]
  · split <;> simp [applyContrib]

/-! ### Claims about the token normalizer (C3) -/

/-- The 12 canonical flat-preferring pitch labels of the spec. -/
def canonicalPitchLabels : List Str :=
  [strL "c", strL "db", strL "d", strL "eb", strL "e", strL "f", strL "f#",
   strL "g", strL "ab", strL "a", strL "bb", strL "b"]

/-- C3 counterexample: the bare key grammar produces the root token
`e#` (for instance from the stem `pad_e#`), and `normalizeNote` keeps
it: the output ends in a sharp accidental although it is not `f#`,
and it is not one of the 12 canonical labels. -/
theorem c3_sharp_label_counterexample :
    get_key (strL "pad_e#") = some ⟨strL "e#", false, none⟩ ∧
    normalize_note (strL "e#") = strL "e#" ∧
    endsWith1 (normalize_note (strL "e#")) '#' = true ∧
    normalize_note (strL "e#") ≠ strL "f#" ∧
    normalize_note (strL "e#") ∉ canonicalPitchLabels := by
  refine ⟨by decide, by decide, by decide, by decide, by decide⟩

/-- C3 amended: for every pitch token of the key grammars (a letter
a–g with an optional `#` or `b`), `normalizeNote` returns one of the
12 canonical flat-preferring labels or one of the five pass-through
tokens `e#`, `b#`, `cb`, `fb`, `gb`; its output ends in a sharp
accidental only for `f#`, `e#` and `b#`. -/
theorem c3_normalize_note_amended (c : Char) (acc : Str)
    (hc : c ∈ [ 'a', 'b', 'c', 'd', 'e', 'f', 'g'])
    (hacc : acc ∈ [([] : Str), [ '#'], [ 'b']]) :
    (normalize_note (c :: acc) ∈ canonicalPitchLabels ∨
      normalize_note (c :: acc) ∈ [strL "e#", strL "b#", strL "cb", strL "fb", strL "gb"]) ∧
    (endsWith1 (normalize_note (c :: acc)) '#' = true →
      normalize_note (c :: acc) ∈ [strL "f#", strL "e#", strL "b#"]) := by
  fin_cases hc <;> fin_cases hacc <;> decide

/-- Witness for the amended C3, at the token `c#`. -/
theorem c3_normalize_note_amended_witness :
    (normalize_note ( 'c' :: [ '#']) ∈ canonicalPitchLabels ∨
      normalize_note ( 'c' :: [ '#']) ∈ [strL "e#", strL "b#", strL "cb", strL "fb", strL "gb"]) ∧
    (endsWith1 (normalize_note ( 'c' :: [ '#'])) '#' = true →
      normalize_note ( 'c' :: [ '#']) ∈ [strL "f#", strL "e#", strL "b#"]) :=
  c3_normalize_note_amended 'c' [ '#'] (by decide) (by decide)

/-! ### Claim C2: the classification loop can raise -/

/-- C2: the per-file classification is not error-free.  The one-shot
`loops_c3.wav` (stem keyed `c3`, instrument fallback `loops`) creates
the dict-shaped bucket `p_loops`; the later generic loop
`loops/pad.wav` targets the same key and hits `.append` on a dict,
an `AttributeError`.  Both files pass the extension filter. -/
theorem c2_classification_crash :
    runManifest (strL "p") (strL "b") [strL "loops_c3.wav", strL "loops/pad.wav"] =
      .error (strL "AttributeError") ∧
    isAudioPath (strL "loops_c3.wav") = true ∧
    isAudioPath (strL "loops/pad.wav") = true :=
  ⟨rfl, by decide, by decide⟩

/-! ### Claim C1: traversal order -/

/-- C1 counterexample: the two orders of the same two discovered files
do not produce the same outcome — one order crashes while the other
produces a manifest, so the claim as stated (identical final manifest
for every permutation) fails. -/
theorem c1_traversal_order_counterexample :
    ([strL "loops_c3.wav", strL "loops/pad.wav"] : List Str).Perm
      [strL "loops/pad.wav", strL "loops_c3.wav"] ∧
    runManifest (strL "p") (strL "b") [strL "loops_c3.wav", strL "loops/pad.wav"] ≠
      runManifest (strL "p") (strL "b") [strL "loops/pad.wav", strL "loops_c3.wav"] := by
  constructor
  · exact List.Perm.swap _ _ _
  · intro h
    have h1 : (runManifest (strL "p") (strL "b")
        [strL "loops_c3.wav", strL "loops/pad.wav"]).isOk = false := rfl
    have h2 : (runManifest (strL "p") (strL "b")
        [strL "loops/pad.wav", strL "loops_c3.wav"]).isOk = true := rfl
    rw [h] at h1
    rw [h2] at h1
    exact Bool.noConfusion h1

/-! ### Claim C6: the loop decision -/

/-- The loop-folder test, unfolded to the claim's wording. -/
theorem is_loops_folder_iff (rel : Str) :
    is_loops_folder rel = true ↔
      ∃ seg ∈ splitSlash rel, slug seg = strL "loop" ∨ slug seg = strL "loops" := by
  simp only [is_loops_folder, has_seg, decide_eq_true_eq, List.any_eq_true,
    decide_eq_true_eq]
  constructor
  · rintro (⟨seg, hm, he⟩ | ⟨seg, hm, he⟩)
    · exact ⟨seg, hm, Or.inl he⟩
    · exact ⟨seg, hm, Or.inr he⟩
  · rintro ⟨seg, hm, he | he⟩
    · exact Or.inl ⟨seg, hm, he⟩
    · exact Or.inr ⟨seg, hm, he⟩

/-- C6: a discovered file is classified as a loop exactly when some
slash-delimited segment of its path slugifies to `loop` or `loops`,
or both a tempo and a key feature are extracted from its stem. -/
theorem c6_loop_decision (pfx rel : Str) :
    (∃ k, contribOf pfx rel = Contrib.loopC k) ↔
      ((∃ seg ∈ splitSlash rel, slug seg = strL "loop" ∨ slug seg = strL "loops") ∨
       (get_bpm (stemOfPath rel) ≠ none ∧ get_key (stemOfPath rel) ≠ none)) := by
  have hcond :
      (is_loops_folder rel = true ∨
        ((get_bpm (stemOfPath rel)).isSome = true ∧ (get_key (stemOfPath rel)).isSome = true)) ↔
      ((∃ seg ∈ splitSlash rel, slug seg = strL "loop" ∨ slug seg = strL "loops") ∨
       (get_bpm (stemOfPath rel) ≠ none ∧ get_key (stemOfPath rel) ≠ none)) := by
    rw [is_loops_folder_iff]
    simp [Option.isSome_iff_ne_none]
  constructor
  · rintro ⟨k, hk⟩
    simp only [contribOf] at hk
    split at hk
    · exact hcond.mp (by assumption)
    · split at hk <;> exact Contrib.noConfusion hk
  · intro h
    simp only [contribOf]
    rw [if_pos (hcond.mpr h)]
    split
    · exact ⟨_, rfl⟩
    · exact ⟨_, rfl⟩

/-- Witness for C6, at a file under a `loops` folder. -/
theorem c6_loop_decision_witness :
    (∃ k, contribOf (strL "p") (strL "loops/pad.wav") = Contrib.loopC k) ↔
      ((∃ seg ∈ splitSlash (strL "loops/pad.wav"),
          slug seg = strL "loop" ∨ slug seg = strL "loops") ∨
       (get_bpm (stemOfPath (strL "loops/pad.wav")) ≠ none ∧
        get_key (stemOfPath (strL "loops/pad.wav")) ≠ none)) :=
  c6_loop_decision (strL "p") (strL "loops/pad.wav")

/-! ### Claim C9: key-only loops lose their key -/

/-- C9: a loop with a key feature but no tempo feature that the
drums-group branch does not handle lands in the bucket
`{prefix}_loops`: the extracted key does not reach the bucket key. -/
theorem c9_key_only_loops (pfx rel : Str) (ki : KeyInfo)
    (h1 : is_loops_folder rel = true)
    (h2 : get_bpm (stemOfPath rel) = none)
    (h3 : get_key (stemOfPath rel) = some ki)
    (h4 : is_drums_loops rel = true → detect_drums_group rel = none) :
    contribOf pfx rel = Contrib.loopC (pfx ++ strL "_loops") := by
  simp only [contribOf]
  have hdr : (if is_drums_loops rel then detect_drums_group rel else none) = none := by
    by_cases hd : is_drums_loops rel = true
    · simp [hd, h4 hd]
    · simp [hd]
  rw [if_pos (Or.inl h1)]
  rw [hdr]
  simp [h2, h3]

/-- Witness for C9, at `loops/pad_c3.wav`. -/
theorem c9_key_only_loops_witness :
    contribOf (strL "p") (strL "loops/pad_c3.wav") =
      Contrib.loopC (strL "p" ++ strL "_loops") :=
  c9_key_only_loops (strL "p") (strL "loops/pad_c3.wav") ⟨strL "c", false, some 3⟩
    (by decide) (by decide) (by decide) (fun h => absurd h (by decide))

/-! ### Claim C10: the bare grammar accepts a trailing digit -/

/-- C10: on the stem `f40` the octave grammar matches nowhere (two
digits follow the letter) and the tempo grammar finds no delimited
token, but the bare key grammar matches with root `f`, major, no
octave; a one-shot with this stem is therefore filed under the
default-octave pitch label `f4`. -/
theorem c10_bare_grammar_digit :
    get_key (strL "f40") = some ⟨strL "f", false, none⟩ ∧
    reSearch kwoBnd kwoCore (lc (strL "f40")) = none ∧
    get_bpm (strL "f40") = none ∧
    contribOf (strL "p") (strL "f40.wav") = Contrib.pitchC (strL "p_f40") (strL "f4") := by
  refine ⟨by decide, by decide, by decide, by decide⟩

/-! ### Order facts about Python string comparison and `sorted` -/

/-- Comparison with itself is false. -/
theorem strLt_irrefl (s : Str) : strLt s s = false := by
  induction s with
  | nil => rfl
  | cons c t ih => simp [strLt, ih]

/-- Two strings neither of which is below the other are equal. -/
theorem strLt_conn : ∀ a b : Str, strLt a b = false → strLt b a = false → a = b
  | [], [], _, _ => rfl
  | [], _ :: _, h, _ => by simp [strLt] at h
  | _ :: _, [], _, h => by simp [strLt] at h
  | a :: as_, b :: bs, h1, h2 => by
    simp only [strLt] at h1 h2
    rcases lt_trichotomy a b with hab | hab | hab
    · rw [if_pos hab] at h1; cases h1
    · subst hab
      rw [if_neg (lt_irrefl a), if_neg (lt_irrefl a)] at h1 h2
      rw [strLt_conn as_ bs h1 h2]
    · rw [if_pos hab] at h2; cases h2

/-- Transitivity of Python string comparison. -/
theorem strLt_trans : ∀ a b c : Str, strLt a b = true → strLt b c = true → strLt a c = true
  | a, b, [], _, h2 => absurd h2 (by cases b <;> simp [strLt])
  | [], b, c :: cs, _, _ => by simp [strLt]
  | a :: as_, [], c :: cs, h1, _ => absurd h1 (by simp [strLt])
  | a :: as_, b :: bs, c :: cs, h1, h2 => by
    simp only [strLt] at h1 h2 ⊢
    rcases lt_trichotomy a b with hab | hab | hab
    · rcases lt_trichotomy b c with hbc | hbc | hbc
      · rw [if_pos (lt_trans hab hbc)]
      · subst hbc; rw [if_pos hab]
      · rw [if_pos hbc] at h2
        rw [if_neg (asymm hbc)] at h2
        cases h2
    · subst hab
      rcases lt_trichotomy a c with hac | hac | hac
      · rw [if_pos hac]
      · subst hac
        rw [if_neg (lt_irrefl a)] at h1 h2 ⊢
        rw [if_neg (lt_irrefl a)] at h1 h2 ⊢
        exact strLt_trans as_ bs cs h1 h2
      · rw [if_neg (asymm hac), if_pos hac] at h2; cases h2
    · rw [if_neg (asymm hab), if_pos hab] at h1; cases h1

/-- Asymmetry of Python string comparison. -/
theorem strLt_asymm (a b : Str) (h : strLt a b = true) : strLt b a = false := by
  cases hba : strLt b a with
  | false => rfl
  | true =>
    have := strLt_trans a b a h hba
    rw [strLt_irrefl] at this
    cases this

/-- Inserting keeps a permutation of the extended list. -/
theorem insSorted_perm (x : Str) (l : List Str) : (insSorted x l).Perm (x :: l) := by
  induction l with
  | nil => exact List.Perm.refl _
  | cons y ys ih =>
    simp only [insSorted]
    split
    · exact List.Perm.refl _
    · exact (ih.cons y).trans (List.Perm.swap x y ys)

/-- The sort is a permutation of its input. -/
theorem pySort_perm (l : List Str) : (pySort l).Perm l := by
  induction l with
  | nil => exact List.Perm.refl _
  | cons x xs ih => exact (insSorted_perm x (pySort xs)).trans (ih.cons x)

/-- Inserting into a list sorted by non-strict comparison keeps it
sorted. -/
theorem insSorted_sorted (x : Str) {l : List Str}
    (h : l.Pairwise (fun a b => strLt b a = false)) :
    (insSorted x l).Pairwise (fun a b => strLt b a = false) := by
  induction l with
  | nil => exact List.pairwise_singleton _ x
  | cons y ys ih =>
    rcases List.pairwise_cons.mp h with ⟨hy, hys⟩
    simp only [insSorted]
    split
    · rename_i hxy
      refine List.pairwise_cons.mpr ⟨?_, h⟩
      intro z hz
      rcases List.mem_cons.mp hz with rfl | hz
      · exact strLt_asymm x z hxy
      · cases hzx : strLt z x with
        | false => rfl
        | true =>
          have := strLt_trans z x y hzx hxy
          rw [hy z hz] at this
          cases this
    · rename_i hxy
      refine List.pairwise_cons.mpr ⟨?_, ih hys⟩
      intro z hz
      have hz' := (insSorted_perm x ys).mem_iff.mp hz
      rcases List.mem_cons.mp hz' with rfl | hz'
      · simpa using hxy
      · exact hy z hz'

/-- The sort is sorted by non-strict comparison. -/
theorem pySort_sorted (l : List Str) :
    (pySort l).Pairwise (fun a b => strLt b a = false) := by
  induction l with
  | nil => exact List.Pairwise.nil
  | cons x xs ih => exact insSorted_sorted x ih

/-- On a duplicate-free list the sort is strictly increasing. -/
theorem pySort_pairwise_lt {l : List Str} (h : l.Nodup) :
    (pySort l).Pairwise (fun a b => strLt a b = true) := by
  have hs := pySort_sorted l
  have hn : (pySort l).Nodup := ((pySort_perm l).nodup_iff).mpr h
  refine (hs.and hn).imp ?_
  intro a b hab
  cases hlt : strLt a b with
  | true => rfl
  | false => exact absurd (strLt_conn a b hlt hab.1) hab.2

/-- Strictly sorted lists are unique in their permutation class. -/
theorem sortedStrictEq {l₁ l₂ : List Str} (hp : l₁.Perm l₂)
    (h₁ : l₁.Pairwise (fun a b => strLt a b = true))
    (h₂ : l₂.Pairwise (fun a b => strLt a b = true)) : l₁ = l₂ := by
  haveI : IsAntisymm Str (fun a b => strLt a b = true) := by
    constructor
    intro a b hab hba
    have := strLt_trans a b a hab hba
    rw [strLt_irrefl] at this
    cases this
  exact List.eq_of_perm_of_sorted hp h₁ h₂

/-- The sorted form of a duplicate-free list depends only on its
membership predicate. -/
theorem pySort_eq_of_mem {l₁ l₂ : List Str} (h₁ : l₁.Nodup) (h₂ : l₂.Nodup)
    (hm : ∀ x, x ∈ l₁ ↔ x ∈ l₂) : pySort l₁ = pySort l₂ := by
  have hp : l₁.Perm l₂ := (List.perm_ext_iff_of_nodup h₁ h₂).mpr hm
  exact sortedStrictEq ((pySort_perm l₁).trans (hp.trans (pySort_perm l₂).symm))
    (pySort_pairwise_lt h₁) (pySort_pairwise_lt h₂)

/-- Key-insertion keeps a permutation of the extended list. -/
theorem insSortedBy_perm {α : Type} (x : Str × α) (l : List (Str × α)) :
    (insSortedBy x l).Perm (x :: l) := by
  induction l with
  | nil => exact List.Perm.refl _
  | cons y ys ih =>
    simp only [insSortedBy]
    split
    · exact List.Perm.refl _
    · exact (ih.cons y).trans (List.Perm.swap x y ys)

/-- The key-sort is a permutation of its input. -/
theorem pySortBy_perm {α : Type} (l : List (Str × α)) : (pySortBy l).Perm l := by
  induction l with
  | nil => exact List.Perm.refl _
  | cons x xs ih => exact (insSortedBy_perm x (pySortBy xs)).trans (ih.cons x)

/-- Key-insertion into a key-sorted list keeps it key-sorted. -/
theorem insSortedBy_sorted {α : Type} (x : Str × α) {l : List (Str × α)}
    (h : l.Pairwise (fun p q => strLt q.1 p.1 = false)) :
    (insSortedBy x l).Pairwise (fun p q => strLt q.1 p.1 = false) := by
  induction l with
  | nil => exact List.pairwise_singleton _ x
  | cons y ys ih =>
    rcases List.pairwise_cons.mp h with ⟨hy, hys⟩
    simp only [insSortedBy]
    split
    · rename_i hxy
      refine List.pairwise_cons.mpr ⟨?_, h⟩
      intro z hz
      rcases List.mem_cons.mp hz with rfl | hz
      · exact strLt_asymm x.1 z.1 hxy
      · cases hzx : strLt z.1 x.1 with
        | false => rfl
        | true =>
          have := strLt_trans z.1 x.1 y.1 hzx hxy
          rw [hy z hz] at this
          cases this
    · rename_i hxy
      refine List.pairwise_cons.mpr ⟨?_, ih hys⟩
      intro z hz
      have hz' := (insSortedBy_perm x ys).mem_iff.mp hz
      rcases List.mem_cons.mp hz' with rfl | hz'
      · simpa using hxy
      · exact hy z hz'

/-- The key-sort is key-sorted. -/
theorem pySortBy_sorted {α : Type} (l : List (Str × α)) :
    (pySortBy l).Pairwise (fun p q => strLt q.1 p.1 = false) := by
  induction l with
  | nil => exact List.Pairwise.nil
  | cons x xs ih => exact insSortedBy_sorted x ih

/-- With duplicate-free keys the key-sort is strictly increasing on
keys. -/
theorem pySortBy_pairwise_lt {α : Type} {l : List (Str × α)}
    (h : (l.map Prod.fst).Nodup) :
    (pySortBy l).Pairwise (fun p q => strLt p.1 q.1 = true) := by
  have hs := pySortBy_sorted l
  have hn : ((pySortBy l).map Prod.fst).Nodup := by
    refine ((pySortBy_perm l).map Prod.fst).nodup_iff.mpr h
  have hn' : (pySortBy l).Pairwise (fun p q => p.1 ≠ q.1) := List.pairwise_map.mp hn
  refine (hs.and hn').imp ?_
  intro p q hpq
  cases hlt : strLt p.1 q.1 with
  | true => rfl
  | false => exact absurd (strLt_conn p.1 q.1 hlt hpq.1) hpq.2

/-- Strictly key-sorted pair lists are unique in their permutation
class. -/
theorem sortedByStrictEq {α : Type} {l₁ l₂ : List (Str × α)} (hp : l₁.Perm l₂)
    (h₁ : l₁.Pairwise (fun p q => strLt p.1 q.1 = true))
    (h₂ : l₂.Pairwise (fun p q => strLt p.1 q.1 = true)) : l₁ = l₂ := by
  haveI : IsAntisymm (Str × α) (fun p q => strLt p.1 q.1 = true) := by
    constructor
    intro p q hpq hqp
    have := strLt_trans p.1 q.1 p.1 hpq hqp
    rw [strLt_irrefl] at this
    cases this
  exact List.eq_of_perm_of_sorted hp h₁ h₂

/-- The key-sorted form of a pair list with duplicate-free keys
depends only on its membership predicate. -/
theorem pySortBy_eq_of_mem {α : Type} {l₁ l₂ : List (Str × α)}
    (h₁ : (l₁.map Prod.fst).Nodup) (h₂ : (l₂.map Prod.fst).Nodup)
    (hm : ∀ x, x ∈ l₁ ↔ x ∈ l₂) : pySortBy l₁ = pySortBy l₂ := by
  have hp : l₁.Perm l₂ := (List.perm_ext_iff_of_nodup h₁.of_map h₂.of_map).mpr hm
  exact sortedByStrictEq ((pySortBy_perm l₁).trans (hp.trans (pySortBy_perm l₂).symm))
    (pySortBy_pairwise_lt h₁) (pySortBy_pairwise_lt h₂)

/-! ### Claim C4: the tempo extractor against its declarative reading -/

/-- Stated from the claim's wording: a 2–3-digit token at the head of
the input, delimited on the right by end-of-string, space, underscore
or hyphen (the left delimitation is checked by the position
enumeration in `bpmTokensP`).  The two cases are mutually exclusive,
since a digit is never a delimiter. -/
def bpmTokenHead : Str → Option Str
  | d1 :: d2 :: d3 :: rest =>
    if isDig d1 ∧ isDig d2 ∧ isDig d3 ∧ bpmLook rest then some [d1, d2, d3]
    else if isDig d1 ∧ isDig d2 ∧ isDelim d3 then some [d1, d2]
    else none
  | [d1, d2] => if isDig d1 ∧ isDig d2 then some [d1, d2] else none
  | _ => none

/-- Stated from the claim's wording: enumerate every position of the
input in order; a position contributes a token when the previous
character is a delimiter (or the position is the start) and a
right-delimited 2–3-digit group begins there. -/
def bpmTokensP : Option Char → Str → List Str
  | _, [] => []
  | prev, c :: rest =>
    (if (match prev with | none => true | some d => isDelim d) then
      (bpmTokenHead (c :: rest)).toList
    else []) ++ bpmTokensP (some c) rest

/-- All the claim's tempo tokens of a stem, in position order. -/
def bpmTokens (s : Str) : List Str := bpmTokensP none s

/-- A digit is not a delimiter. -/
theorem isDig_not_isDelim (c : Char) (h : isDig c = true) : isDelim c = false := by
  simp only [isDig, decide_eq_true_eq] at h
  simp only [isDelim, decide_eq_false_iff_not]
  rintro (rfl | rfl | rfl)
  · exact absurd h.1 (by decide)
  · exact absurd h.2 (by decide)
  · exact absurd h.1 (by decide)

/-- The regex core match agrees with the claim's token-at-head
description. -/
theorem bpmTry_eq_tokenHead :
    ∀ l : Str, bpmTry l = (bpmTokenHead l).map (fun ds => (ds, l.drop ds.length))
  | [] => rfl
  | [d1] => rfl
  | [d1, d2] => by
    simp only [bpmTry, bpmTokenHead]
    split <;> rfl
  | d1 :: d2 :: d3 :: rest => by
    simp only [bpmTry, bpmTokenHead]
    split_ifs <;> simp_all

/-- Inversion of a successful regex core match: the captured group is
two or three digits and the remaining input is the rest of the list. -/
theorem bpmTry_inv : ∀ {l ds r2 : Str}, bpmTry l = some (ds, r2) →
    (∃ d1 d2, ds = [d1, d2] ∧ isDig d1 = true ∧ isDig d2 = true ∧ l = d1 :: d2 :: r2) ∨
    (∃ d1 d2 d3, ds = [d1, d2, d3] ∧ isDig d1 = true ∧ isDig d2 = true ∧ isDig d3 = true ∧
      l = d1 :: d2 :: d3 :: r2) := by
  intro l ds r2 h
  match l with
  | [] => cases h
  | [d1] => cases h
  | [d1, d2] =>
    rw [bpmTry] at h
    split at h
    · rename_i hc
      cases h
      exact Or.inl ⟨d1, d2, rfl, hc.1, hc.2, rfl⟩
    · cases h
  | d1 :: d2 :: d3 :: rest =>
    rw [bpmTry] at h
    split at h
    · rename_i hc
      split at h
      · rename_i hc2
        cases h
        exact Or.inr ⟨d1, d2, d3, rfl, hc.1, hc.2, hc2.1, rfl⟩
      · split at h
        · cases h
          exact Or.inl ⟨d1, d2, rfl, hc.1, hc.2, rfl⟩
        · cases h
    · cases h

/-- The scan agrees with the positional enumeration: scanning after a
consumed position enumerates the remaining positions. -/
theorem bpmScan_eq_tokensP :
    ∀ n (c : Char) (l : Str), l.length ≤ n → bpmScan (c :: l) = bpmTokensP (some c) l := by
  intro n
  induction n with
  | zero =>
    intro c l hl
    have : l = [] := List.length_eq_zero.mp (Nat.le_zero.mp hl)
    subst this
    rw [bpmScan_cons]
    cases h : isDelim c <;> simp [h, bpmTokensP, bpmScan, bpmScanF, bpmTry]
  | succ n ih =>
    intro c l hl
    have hskip : ∀ (x : Char) (r : Str), isDelim x = false → r.length ≤ n + 1 →
        bpmTokensP (some x) r = bpmScan r := by
      intro x r hx hr
      match r, hr with
      | [], _ => simp [bpmTokensP, bpmScan, bpmScanF]
      | e :: r3, hr =>
        simp only [bpmTokensP, hx, Bool.false_eq_true, if_false, List.nil_append]
        rw [ih e r3 (by simp only [List.length_cons] at hr; omega)]
    match l with
    | [] =>
      rw [bpmScan_cons]
      cases h : isDelim c <;> simp [h, bpmTokensP, bpmScan, bpmScanF, bpmTry]
    | d :: r =>
      simp only [List.length_cons] at hl
      rw [bpmScan_cons]
      by_cases hc : isDelim c = true
      · rw [if_pos hc]
        simp only [bpmTokensP, hc, if_true]
        cases htry : bpmTry (d :: r) with
        | none =>
          have hth : bpmTokenHead (d :: r) = none := by
            have hmap := bpmTry_eq_tokenHead (d :: r)
            rw [htry] at hmap
            cases hh : bpmTokenHead (d :: r)
            · rfl
            · rw [hh] at hmap; cases hmap
          rw [hth]
          simp only [Option.toList_none, List.nil_append]
          exact ih d r (by omega)
        | some pair =>
          obtain ⟨ds, r2⟩ := pair
          have hth : bpmTokenHead (d :: r) = some ds := by
            have hmap := bpmTry_eq_tokenHead (d :: r)
            rw [htry] at hmap
            cases hh : bpmTokenHead (d :: r) with
            | none => rw [hh] at hmap; cases hmap
            | some ds' =>
              rw [hh] at hmap
              simp only [Option.map_some'] at hmap
              cases hmap
              rfl
          have htail : bpmScan r2 = bpmTokensP (some d) r := by
            rcases bpmTry_inv htry with ⟨e1, e2, hds, hd1, hd2, hl2⟩ | ⟨e1, e2, e3, hds, hd1, hd2, hd3, hl2⟩
            · obtain ⟨rfl, hr⟩ : d = e1 ∧ r = e2 :: r2 := by
                cases hl2; exact ⟨rfl, rfl⟩
              subst hr
              simp only [List.length_cons] at hl
              simp only [bpmTokensP, isDig_not_isDelim d hd1, Bool.false_eq_true, if_false,
                List.nil_append]
              rw [hskip e2 r2 (isDig_not_isDelim e2 hd2) (by omega)]
            · obtain ⟨rfl, hr⟩ : d = e1 ∧ r = e2 :: e3 :: r2 := by
                cases hl2; exact ⟨rfl, rfl⟩
              subst hr
              simp only [List.length_cons] at hl
              simp only [bpmTokensP, isDig_not_isDelim d hd1, isDig_not_isDelim e2 hd2,
                Bool.false_eq_true, if_false, List.nil_append]
              rw [hskip e3 r2 (isDig_not_isDelim e3 hd3) (by omega)]
          show ds :: bpmScan r2 = (bpmTokenHead (d :: r)).toList ++ bpmTokensP (some d) r
          rw [hth, htail]
          rfl
      · rw [if_neg hc]
        simp only [bpmTokensP]
        rw [if_neg (by simpa using hc)]
        simp only [List.nil_append]
        exact ih d r (by omega)

/-- The full scan of the tempo regex enumerates exactly the claim's
tokens in order. -/
theorem bpmFinditer_eq_tokens (s : Str) : bpmFinditer s = bpmTokens s := by
  unfold bpmFinditer bpmTokens
  match s with
  | [] => rfl
  | c :: rest =>
    cases htry : bpmTry (c :: rest) with
    | none =>
      have hth : bpmTokenHead (c :: rest) = none := by
        have hmap := bpmTry_eq_tokenHead (c :: rest)
        rw [htry] at hmap
        cases hh : bpmTokenHead (c :: rest)
        · rfl
        · rw [hh] at hmap; cases hmap
      simp only [bpmTokensP, hth, Option.toList_none, if_pos, List.nil_append]
      exact bpmScan_eq_tokensP rest.length c rest (Nat.le_refl _)
    | some pair =>
      obtain ⟨ds, r2⟩ := pair
      have hth : bpmTokenHead (c :: rest) = some ds := by
        have hmap := bpmTry_eq_tokenHead (c :: rest)
        rw [htry] at hmap
        cases hh : bpmTokenHead (c :: rest) with
        | none => rw [hh] at hmap; cases hmap
        | some ds' =>
          rw [hh] at hmap
          simp only [Option.map_some'] at hmap
          cases hmap
          rfl
      have hskip : ∀ (x : Char) (r : Str), isDelim x = false →
          bpmTokensP (some x) r = bpmScan r := by
        intro x r hx
        match r with
        | [] => simp [bpmTokensP, bpmScan, bpmScanF]
        | e :: r3 =>
          simp only [bpmTokensP, hx, Bool.false_eq_true, if_false, List.nil_append]
          rw [bpmScan_eq_tokensP r3.length e r3 (Nat.le_refl _)]
      have htail : bpmScan r2 = bpmTokensP (some c) rest := by
        rcases bpmTry_inv htry with ⟨e1, e2, hds, hd1, hd2, hl2⟩ | ⟨e1, e2, e3, hds, hd1, hd2, hd3, hl2⟩
        · obtain ⟨rfl, hr⟩ : c = e1 ∧ rest = e2 :: r2 := by cases hl2; exact ⟨rfl, rfl⟩
          subst hr
          simp only [bpmTokensP, isDig_not_isDelim c hd1, Bool.false_eq_true, if_false,
            List.nil_append]
          rw [hskip e2 r2 (isDig_not_isDelim e2 hd2)]
        · obtain ⟨rfl, hr⟩ : c = e1 ∧ rest = e2 :: e3 :: r2 := by cases hl2; exact ⟨rfl, rfl⟩
          subst hr
          simp only [bpmTokensP, isDig_not_isDelim c hd1, isDig_not_isDelim e2 hd2,
            Bool.false_eq_true, if_false, List.nil_append]
          rw [hskip e3 r2 (isDig_not_isDelim e3 hd3)]
      calc ds :: bpmScan r2 = ds :: bpmTokensP (some c) rest := by rw [htail]
        _ = (bpmTokenHead (c :: rest)).toList ++ bpmTokensP (some c) rest := by
            rw [hth]; rfl
        _ = bpmTokensP none (c :: rest) := rfl

/-- C4: for every stem, `extractTempo` returns exactly the last
claim-side token (2–3 digits, delimited on both sides by start or end
of string, space, underscore or hyphen) whose value is in `[40,200)`,
none when no such token exists, and it never returns a value outside
`[40,200)`. -/
theorem c4_extractTempo_spec (stem : Str) :
    get_bpm stem =
      (((bpmTokens (lc stem)).map digitsToNat).filter
        (fun b => 40 ≤ b ∧ b < 200)).getLast? ∧
    (∀ b, get_bpm stem = some b → 40 ≤ b ∧ b < 200) := by
  constructor
  · simp only [get_bpm]
    rw [bpmFinditer_eq_tokens]
  · intro b hb
    unfold get_bpm at hb
    have hmem : b ∈ ((bpmFinditer (lc stem)).map digitsToNat).filter
        (fun b => 40 ≤ b ∧ b < 200) := by
      rcases List.mem_getLast?_eq_getLast (by rw [hb]; rfl) with ⟨hne, heq⟩
      rw [heq]
      exact List.getLast_mem hne
    have := List.of_mem_filter hmem
    simpa using this

/-- Witness for C4, at the stem `break_120`. -/
theorem c4_extractTempo_spec_witness : 40 ≤ 120 ∧ 120 < 200 :=
  (c4_extractTempo_spec (strL "break_120")).2 120 (by decide)

/-! ### Claim C5: leftmost-match search and grammar precedence -/

/-- The boundary-consuming attempt of a pattern `(?:^|CLASS) CORE` at
position `i`: the character at `i` must be in the boundary class and
the core must match just after it. -/
def attB (bnd : Char → Bool) (core : Str → Option α) (s : Str) (i : Nat) : Option α :=
  match s.get? i with
  | some c => if bnd c then core (s.drop (i + 1)) else none
  | none => none

/-- The full attempt of a pattern `(?:^|CLASS) CORE` at position `i`:
at position 0 the zero-width `^` alternative is tried before the
boundary alternative, at later positions only the boundary applies. -/
def attAt (bnd : Char → Bool) (core : Str → Option α) (s : Str) : Nat → Option α
  | 0 =>
    match core s with
    | some m => some m
    | none => attB bnd core s 0
  | i + 1 => attB bnd core s (i + 1)

/-- Shifting a boundary attempt across the head of the input. -/
theorem attB_cons_succ (bnd : Char → Bool) (core : Str → Option α) (c : Char) (rest : Str)
    (i : Nat) : attB bnd core (c :: rest) (i + 1) = attB bnd core rest i := by
  simp [attB]

/-- A boundary attempt at position 0 of a cons cell. -/
theorem attB_cons_zero (bnd : Char → Bool) (core : Str → Option α) (c : Char) (rest : Str) :
    attB bnd core (c :: rest) 0 = if bnd c then core rest else none := by
  simp [attB]

/-- If every boundary attempt fails, the scan fails. -/
theorem reScan_eq_none (bnd : Char → Bool) (core : Str → Option α) :
    ∀ s : Str, (∀ i, attB bnd core s i = none) → reScan bnd core s = none := by
  intro s
  induction s with
  | nil => intro _; rfl
  | cons c rest ih =>
    intro h
    have h0 := h 0
    rw [attB_cons_zero] at h0
    have hrest : ∀ i, attB bnd core rest i = none := by
      intro i
      have := h (i + 1)
      rwa [attB_cons_succ] at this
    simp only [reScan]
    split
    · rename_i hb
      rw [if_pos hb] at h0
      rw [h0]
      exact ih hrest
    · exact ih hrest

/-- If the boundary attempt at `i` succeeds and every earlier boundary
attempt fails, the scan returns that match. -/
theorem reScan_eq_some (bnd : Char → Bool) (core : Str → Option α) :
    ∀ (s : Str) (i : Nat) (m : α), attB bnd core s i = some m →
      (∀ j, j < i → attB bnd core s j = none) → reScan bnd core s = some m := by
  intro s
  induction s with
  | nil =>
    intro i m hi _
    simp [attB] at hi
  | cons c rest ih =>
    intro i m hi hj
    match i with
    | 0 =>
      rw [attB_cons_zero] at hi
      simp only [reScan]
      split
      · rename_i hb
        rw [if_pos hb] at hi
        rw [hi]
      · rename_i hb
        rw [if_neg hb] at hi
        cases hi
    | i' + 1 =>
      rw [attB_cons_succ] at hi
      have h0 := hj 0 (Nat.succ_pos i')
      rw [attB_cons_zero] at h0
      have hrest : ∀ j', j' < i' → attB bnd core rest j' = none := by
        intro j' hj'
        have := hj (j' + 1) (Nat.succ_lt_succ hj')
        rwa [attB_cons_succ] at this
      simp only [reScan]
      split
      · rename_i hb
        rw [if_pos hb] at h0
        rw [h0]
        exact ih i' m hi hrest
      · exact ih i' m hi hrest

/-- If every attempt fails, the search fails. -/
theorem reSearch_eq_none (bnd : Char → Bool) (core : Str → Option α) (s : Str)
    (h : ∀ i, attAt bnd core s i = none) : reSearch bnd core s = none := by
  have h0 := h 0
  simp only [attAt] at h0
  have hcore : core s = none := by
    cases hc : core s
    · rfl
    · rw [hc] at h0; cases h0
  rw [hcore] at h0
  simp only [reSearch, hcore]
  refine reScan_eq_none bnd core s ?_
  intro i
  match i with
  | 0 => exact h0
  | i' + 1 =>
    have := h (i' + 1)
    simpa [attAt] using this

/-- If the attempt at `i` succeeds and every earlier attempt fails,
the search returns that match (leftmost semantics, with the `^`
alternative tried first at position 0). -/
theorem reSearch_eq_some (bnd : Char → Bool) (core : Str → Option α) (s : Str) (i : Nat)
    (m : α) (hi : attAt bnd core s i = some m)
    (hj : ∀ j, j < i → attAt bnd core s j = none) : reSearch bnd core s = some m := by
  match i with
  | 0 =>
    simp only [attAt] at hi
    cases hc : core s with
    | some m' =>
      rw [hc] at hi
      cases hi
      simp [reSearch, hc]
    | none =>
      rw [hc] at hi
      simp only [reSearch, hc]
      exact reScan_eq_some bnd core s 0 m hi (fun j hj' => absurd hj' (Nat.not_lt_zero j))
  | i' + 1 =>
    simp only [attAt] at hi
    have h0 := hj 0 (Nat.succ_pos i')
    simp only [attAt] at h0
    have hcore : core s = none := by
      cases hc : core s
      · rfl
      · rw [hc] at h0; cases h0
    rw [hcore] at h0
    simp only [reSearch, hcore]
    refine reScan_eq_some bnd core s (i' + 1) m hi ?_
    intro j hj'
    match j with
    | 0 => exact h0
    | j' + 1 =>
      have := hj (j' + 1) hj'
      simpa [attAt] using this

/-- Source `qualMinor` written with the claim's wording. -/
theorem qualMinor_eq (q : Option Str) :
    qualMinor q = decide (q = some (strL "m") ∨ q = some (strL "min")) := by
  cases q with
  | none => rfl
  | some x => simp [qualMinor]

/-- C5: `extractKey` searches the octave-qualified grammar first, and
a leftmost octave match anywhere in the stem wins with `minor=false`
and the matched octave digit; only if that grammar matches at no
position does the leftmost bare-grammar match decide the result, with
`minor` true exactly for the suffixes `m` and `min` and the octave
unset; if neither grammar matches anywhere the result is none. -/
theorem c5_extractKey_precedence (stem : Str) :
    (∀ i m, attAt kwoBnd kwoCore (lc stem) i = some m →
      (∀ j, j < i → attAt kwoBnd kwoCore (lc stem) j = none) →
      get_key stem =
        some ⟨normalize_note (m.1 :: m.2.1.toList), false, some (digitVal m.2.2)⟩) ∧
    ((∀ i, attAt kwoBnd kwoCore (lc stem) i = none) →
      ∀ i m, attAt isDelim ktCore (lc stem) i = some m →
        (∀ j, j < i → attAt isDelim ktCore (lc stem) j = none) →
        get_key stem =
          some ⟨normalize_note (m.1 :: m.2.1.toList),
            decide (m.2.2 = some (strL "m") ∨ m.2.2 = some (strL "min")), none⟩) ∧
    ((∀ i, attAt kwoBnd kwoCore (lc stem) i = none) →
      (∀ i, attAt isDelim ktCore (lc stem) i = none) →
      get_key stem = none) := by
  refine ⟨?_, ?_, ?_⟩
  · intro i m hi hj
    have hs := reSearch_eq_some kwoBnd kwoCore (lc stem) i m hi hj
    obtain ⟨c, a, d⟩ := m
    simp [get_key, hs]
  · intro hnone i m hi hj
    have hs := reSearch_eq_none kwoBnd kwoCore (lc stem) hnone
    have ht := reSearch_eq_some isDelim ktCore (lc stem) i m hi hj
    obtain ⟨c, a, q⟩ := m
    simp [get_key, hs, ht, qualMinor_eq]
  · intro h1 h2
    have hs := reSearch_eq_none kwoBnd kwoCore (lc stem) h1
    have ht := reSearch_eq_none isDelim ktCore (lc stem) h2
    simp [get_key, hs, ht]

/-- Witness for C5, at the stem `c3`: the octave grammar matches at
position 0 with the `^` alternative. -/
theorem c5_extractKey_precedence_witness :
    get_key (strL "c3") =
      some ⟨normalize_note ( 'c' :: (none : Option Char).toList), false,
        some (digitVal '3')⟩ :=
  (c5_extractKey_precedence (strL "c3")).1 0 ( 'c', none, '3') (by decide)
    (fun j hj => absurd hj (Nat.not_lt_zero j))

/-! ### Association-list lemmas and pitch-label facts -/

/-- Reading back the key just written. -/
theorem aget_aset_self {α : Type} (l : List (Str × α)) (k : Str) (v : α) :
    aget (aset l k v) k = some v := by
  induction l with
  | nil =>
    simp only [aset, aget]
    exact if_pos trivial
  | cons kv t ih =>
    obtain ⟨k', v'⟩ := kv
    simp only [aset]
    split
    · rename_i he
      subst he
      simp only [aget]
      exact if_pos trivial
    · rename_i he
      simp only [aget]
      rw [if_neg he]
      exact ih

/-- Writing one key does not change another. -/
theorem aget_aset_ne {α : Type} (l : List (Str × α)) (k k' : Str) (v : α) (h : k' ≠ k) :
    aget (aset l k' v) k = aget l k := by
  induction l with
  | nil =>
    simp only [aset, aget]
    rw [if_neg h]
  | cons kv t ih =>
    obtain ⟨k0, v0⟩ := kv
    simp only [aset]
    split
    · rename_i he
      subst he
      simp only [aget]
      rw [if_neg h, if_neg h]
    · simp only [aget]
      split
      · rfl
      · exact ih

/-- A successful lookup is a member of the association list. -/
theorem aget_some_mem {α : Type} {l : List (Str × α)} {k : Str} {v : α}
    (h : aget l k = some v) : (k, v) ∈ l := by
  induction l with
  | nil => cases h
  | cons kv t ih =>
    obtain ⟨k', v'⟩ := kv
    simp only [aget] at h
    split at h
    · rename_i he
      cases h
      subst he
      exact List.mem_cons_self _ _
    · exact List.mem_cons_of_mem _ (ih h)

/-- A lookup fails exactly off the key set. -/
theorem aget_eq_none_iff {α : Type} (l : List (Str × α)) (k : Str) :
    aget l k = none ↔ k ∉ l.map Prod.fst := by
  induction l with
  | nil => simp [aget]
  | cons kv t ih =>
    obtain ⟨k', v'⟩ := kv
    simp only [aget, List.map_cons, List.mem_cons]
    split
    · rename_i he
      subst he
      exact iff_of_false (fun hc => Option.noConfusion hc) (fun hc => hc (Or.inl rfl))
    · rename_i he
      rw [ih]
      constructor
      · rintro hn (rfl | hm)
        · exact he rfl
        · exact hn hm
      · intro hn hm
        exact hn (Or.inr hm)

/-- The key set after an assignment. -/
theorem keys_aset {α : Type} (l : List (Str × α)) (k : Str) (v : α) :
    (aset l k v).map Prod.fst =
      if k ∈ l.map Prod.fst then l.map Prod.fst else l.map Prod.fst ++ [k] := by
  induction l with
  | nil => simp [aset]
  | cons kv t ih =>
    obtain ⟨k', v'⟩ := kv
    simp only [aset]
    split
    · rename_i he
      subst he
      simp only [List.map_cons]
      rw [if_pos (List.mem_cons_self _ _)]
    · rename_i he
      simp only [List.map_cons, List.mem_cons]
      rw [ih]
      by_cases hm : k ∈ t.map Prod.fst
      · rw [if_pos hm, if_pos (Or.inr hm)]
      · rw [if_neg hm, if_neg ?_]
        · simp only [List.cons_append]
        · rintro (he' | hm')
          · exact he he'.symm
          · exact hm hm'

/-- Assignment preserves duplicate-freeness of the key set. -/
theorem keys_aset_nodup {α : Type} {l : List (Str × α)} (k : Str) (v : α)
    (h : (l.map Prod.fst).Nodup) : ((aset l k v).map Prod.fst).Nodup := by
  rw [keys_aset]
  split
  · exact h
  · rename_i hm
    simp only [List.nodup_append, List.nodup_cons, List.nodup_nil]
    refine ⟨h, by simp, ?_⟩
    intro a ha
    simp only [List.mem_singleton]
    rintro rfl
    exact hm ha

/-- Every value of the enharmonic table is two characters long. -/
theorem SHARP2FLAT_val_len {n v : Str} (h : aget SHARP2FLAT n = some v) : v.length = 2 := by
  simp only [SHARP2FLAT, aget] at h
  split_ifs at h <;> (cases h; decide)

/-- The normalizer does not lengthen a short note name. -/
theorem normalize_note_short (x : Str) (h : x.length ≤ 2) :
    (normalize_note x).length ≤ 2 := by
  simp only [normalize_note]
  split
  · cases ht : aget SHARP2FLAT (lc x) with
    | some v => rw [SHARP2FLAT_val_len ht]
    | none => simpa [lc] using h
  · simpa [lc] using h

/-- A scan match comes from a successful core run. -/
theorem reScan_imp_core {α : Type} (bnd : Char → Bool) (core : Str → Option α) :
    ∀ s (m : α), reScan bnd core s = some m → ∃ l, core l = some m := by
  intro s
  induction s with
  | nil => intro m h; cases h
  | cons c rest ih =>
    intro m h
    simp only [reScan] at h
    split at h
    · split at h
      · rename_i hc
        cases h
        exact ⟨rest, hc⟩
      · exact ih m h
    · exact ih m h

/-- A search match comes from a successful core run. -/
theorem reSearch_imp_core {α : Type} (bnd : Char → Bool) (core : Str → Option α)
    (s : Str) (m : α) (h : reSearch bnd core s = some m) : ∃ l, core l = some m := by
  simp only [reSearch] at h
  split at h
  · rename_i hc
    cases h
    exact ⟨s, hc⟩
  · exact reScan_imp_core bnd core s m h

/-- The octave grammar always captures a digit in group 3. -/
theorem kwoCore_digit {l : Str} {c : Char} {a : Option Char} {d : Char}
    (h : kwoCore l = some (c, a, d)) : isDig d = true := by
  match l with
  | [] => cases h
  | [x] => cases h
  | [x, y] =>
    simp only [kwoCore] at h
    split at h
    · rename_i hc
      cases h
      exact hc.2
    · cases h
  | x :: y :: z :: rest =>
    simp only [kwoCore] at h
    split at h
    · split at h
      · rename_i hc
        cases h
        exact hc.2.1
      · split at h
        · rename_i hc
          cases h
          exact hc.1
        · cases h
    · cases h

/-- Digits have value at most 9. -/
theorem digitVal_le9 {d : Char} (h : isDig d = true) : digitVal d ≤ 9 := by
  simp only [isDig, decide_eq_true_eq] at h
  simp only [digitVal]
  omega

/-- Decimal rendering of a single digit is one character. -/
theorem natStr_len1 {n : Nat} (h : n ≤ 9) : (natStr n).length = 1 := by
  interval_cases n <;> rfl

/-- Structure of every key feature the extractor can produce: a short
root and a one-digit octave when present. -/
theorem get_key_shape {stem : Str} {ki : KeyInfo} (h : get_key stem = some ki) :
    ki.root.length ≤ 2 ∧ ∀ n, ki.oct = some n → n ≤ 9 := by
  simp only [get_key] at h
  cases h1 : reSearch kwoBnd kwoCore (lc stem) with
  | some m =>
    obtain ⟨c, a, d⟩ := m
    rw [h1] at h
    cases h
    constructor
    · refine normalize_note_short _ ?_
      cases a <;> simp
    · intro n hn
      simp only at hn
      cases hn
      obtain ⟨l, hl⟩ := reSearch_imp_core kwoBnd kwoCore (lc stem) _ h1
      exact digitVal_le9 (kwoCore_digit hl)
  | none =>
    rw [h1] at h
    cases h2 : reSearch isDelim ktCore (lc stem) with
    | some m =>
      obtain ⟨c, a, q⟩ := m
      rw [h2] at h
      cases h
      constructor
      · refine normalize_note_short _ ?_
        cases a <;> simp
      · intro n hn
        cases hn
    | none => rw [h2] at h; cases h

/-- A pitch label is never the reserved `"unpitched"` label. -/
theorem pitchOf_ne_unpitched {stem : Str} {ki : KeyInfo} (h : get_key stem = some ki) :
    pitchOf ki ≠ strL "unpitched" := by
  intro he
  obtain ⟨hr, ho⟩ := get_key_shape h
  have hlen : (pitchOf ki).length ≤ 3 := by
    unfold pitchOf
    rw [List.length_append]
    cases hoc : ki.oct with
    | none => simp only [hoc]; simp [strL]; omega
    | some n =>
      simp only [hoc]
      rw [natStr_len1 (ho n hoc)]
      omega
  rw [he] at hlen
  simp [strL] at hlen

/-- Inversion of a pitched one-shot contribution. -/
theorem contribOf_pitch_inv {pfx rel k p : Str}
    (h : contribOf pfx rel = Contrib.pitchC k p) :
    ∃ ki, get_key (stemOfPath rel) = some ki ∧ p = pitchOf ki ∧
      k = pfx ++ strL "_" ++ guess_instrument rel := by
  simp only [contribOf] at h
  split at h
  · split at h <;> cases h
  · cases hk : get_key (stemOfPath rel) with
    | some ki =>
      rw [hk] at h
      cases h
      exact ⟨ki, rfl, rfl, rfl⟩
    | none => rw [hk] at h; cases h

/-! ### Claim C7: bucket shape invariant with preserving promotion -/

/-- C7: across one classification step, (a) a pitch-map bucket never
changes shape again, (b) a freshly created bucket takes pitch-map
shape exactly when the file is a pitched one-shot contribution to
that key, and (c) the only plain-list to pitch-map transition is the
promotion by a pitched contribution, which moves the whole plain list
under the `"unpitched"` label. -/
theorem c7_bucket_shape_invariant (pfx : Str) (d d' : Buckets) (rel k : Str)
    (hstep : step pfx d rel = .ok d') :
    (∀ m, aget d k = some (BVal.dict m) → ∃ m', aget d' k = some (BVal.dict m')) ∧
    (aget d k = none → ∀ v, aget d' k = some v →
      ((∃ m, v = BVal.dict m) ↔ ∃ p, contribOf pfx rel = Contrib.pitchC k p)) ∧
    (∀ l m', aget d k = some (BVal.lst l) → aget d' k = some (BVal.dict m') →
      (∃ p, contribOf pfx rel = Contrib.pitchC k p) ∧
        aget m' (strL "unpitched") = some l) := by
  rw [step_eq_applyContrib] at hstep
  cases hc : contribOf pfx rel with
  | loopC k0 =>
    rw [hc] at hstep
    simp only [applyContrib, loopAppend] at hstep
    cases hb : aget d k0 with
    | none =>
      rw [hb] at hstep
      cases hstep
      by_cases hkk : k0 = k
      · subst hkk
        refine ⟨?_, ?_, ?_⟩
        · intro m hm; rw [hb] at hm; cases hm
        · intro _ v hv
          rw [aget_aset_self] at hv
          cases hv
          refine iff_of_false ?_ ?_
          · rintro ⟨m, hm⟩; cases hm
          · rintro ⟨p, hp⟩; exact Contrib.noConfusion hp
        · intro l m' hl _; rw [hb] at hl; cases hl
      · refine ⟨?_, ?_, ?_⟩
        · intro m hm
          rw [aget_aset_ne d k k0 _ hkk]
          exact ⟨m, hm⟩
        · intro hn v hv
          rw [aget_aset_ne d k k0 _ hkk] at hv
          rw [hn] at hv
          cases hv
        · intro l m' hl hm'
          rw [aget_aset_ne d k k0 _ hkk] at hm'
          rw [hl] at hm'
          simp at hm'
    | some bv =>
      cases bv with
      | lst l0 =>
        rw [hb] at hstep
        cases hstep
        by_cases hkk : k0 = k
        · subst hkk
          refine ⟨?_, ?_, ?_⟩
          · intro m hm; rw [hb] at hm; simp at hm
          · intro hn; rw [hb] at hn; cases hn
          · intro l m' _ hm'
            rw [aget_aset_self] at hm'
            simp at hm'
        · refine ⟨?_, ?_, ?_⟩
          · intro m hm
            rw [aget_aset_ne d k k0 _ hkk]
            exact ⟨m, hm⟩
          · intro hn v hv
            rw [aget_aset_ne d k k0 _ hkk] at hv
            rw [hn] at hv
            cases hv
          · intro l m' hl hm'
            rw [aget_aset_ne d k k0 _ hkk] at hm'
            rw [hl] at hm'
            simp at hm'
      | dict m0 =>
        rw [hb] at hstep
        replace hstep : (if rel ∈ m0.map Prod.fst then Except.ok d
            else Except.error (strL "AttributeError")) = Except.ok d' := hstep
        split at hstep
        · cases hstep
          refine ⟨?_, ?_, ?_⟩
          · intro m hm; exact ⟨m, hm⟩
          · intro hn v hv; rw [hn] at hv; cases hv
          · intro l m' hl hm'
            rw [hl] at hm'
            simp at hm'
        · cases hstep
  | pitchC k0 p =>
    rw [hc] at hstep
    simp only [applyContrib] at hstep
    cases hstep
    by_cases hkk : k0 = k
    · subst hkk
      refine ⟨?_, ?_, ?_⟩
      · intro m hm
        rw [oneshotPitched, aget_aset_self]
        exact ⟨_, rfl⟩
      · intro hn v hv
        rw [oneshotPitched, aget_aset_self] at hv
        cases hv
        exact iff_of_true ⟨_, rfl⟩ ⟨p, rfl⟩
      · intro l m' hl hm'
        rw [oneshotPitched, aget_aset_self, hl] at hm'
        obtain ⟨ki, hki, hp, _⟩ := contribOf_pitch_inv hc
        have hpu : p ≠ strL "unpitched" := hp ▸ pitchOf_ne_unpitched hki
        have hX : dictAppend (ensure_map (some (BVal.lst l))) p rel = m' := by
          injection Option.some.inj hm'
        refine ⟨⟨p, rfl⟩, ?_⟩
        rw [← hX]
        have hget : aget [(strL "unpitched", l)] p = none := by
          simp only [aget]
          rw [if_neg (Ne.symm hpu)]
        simp only [ensure_map, dictAppend]
        rw [hget]
        show aget [(strL "unpitched", l), (p, appendUnique [] rel)] (strL "unpitched") = some l
        simp only [aget]
        exact if_pos trivial
    · refine ⟨?_, ?_, ?_⟩
      · intro m hm
        rw [oneshotPitched, aget_aset_ne d k k0 _ hkk]
        exact ⟨m, hm⟩
      · intro hn v hv
        rw [oneshotPitched, aget_aset_ne d k k0 _ hkk] at hv
        rw [hn] at hv
        cases hv
      · intro l m' hl hm'
        rw [oneshotPitched, aget_aset_ne d k k0 _ hkk] at hm'
        rw [hl] at hm'
        simp at hm'
  | unpitchC k0 =>
    rw [hc] at hstep
    simp only [applyContrib, oneshotUnpitched] at hstep
    cases hb : aget d k0 with
    | none =>
      rw [hb] at hstep
      cases hstep
      by_cases hkk : k0 = k
      · subst hkk
        refine ⟨?_, ?_, ?_⟩
        · intro m hm; rw [hb] at hm; cases hm
        · intro _ v hv
          rw [aget_aset_self] at hv
          cases hv
          refine iff_of_false ?_ ?_
          · rintro ⟨m, hm⟩; cases hm
          · rintro ⟨p', hp⟩; exact Contrib.noConfusion hp
        · intro l m' hl _; rw [hb] at hl; cases hl
      · refine ⟨?_, ?_, ?_⟩
        · intro m hm
          rw [aget_aset_ne d k k0 _ hkk]
          exact ⟨m, hm⟩
        · intro hn v hv
          rw [aget_aset_ne d k k0 _ hkk] at hv
          rw [hn] at hv
          cases hv
        · intro l m' hl hm'
          rw [aget_aset_ne d k k0 _ hkk] at hm'
          rw [hl] at hm'
          simp at hm'
    | some bv =>
      cases bv with
      | lst l0 =>
        rw [hb] at hstep
        cases hstep
        by_cases hkk : k0 = k
        · subst hkk
          refine ⟨?_, ?_, ?_⟩
          · intro m hm; rw [hb] at hm; simp at hm
          · intro hn; rw [hb] at hn; cases hn
          · intro l m' _ hm'
            rw [aget_aset_self] at hm'
            simp at hm'
        · refine ⟨?_, ?_, ?_⟩
          · intro m hm
            rw [aget_aset_ne d k k0 _ hkk]
            exact ⟨m, hm⟩
          · intro hn v hv
            rw [aget_aset_ne d k k0 _ hkk] at hv
            rw [hn] at hv
            cases hv
          · intro l m' hl hm'
            rw [aget_aset_ne d k k0 _ hkk] at hm'
            rw [hl] at hm'
            simp at hm'
      | dict m0 =>
        rw [hb] at hstep
        cases hstep
        by_cases hkk : k0 = k
        · subst hkk
          refine ⟨?_, ?_, ?_⟩
          · intro m hm
            rw [aget_aset_self]
            exact ⟨_, rfl⟩
          · intro hn; rw [hb] at hn; cases hn
          · intro l m' hl _; rw [hb] at hl; cases hl
        · refine ⟨?_, ?_, ?_⟩
          · intro m hm
            rw [aget_aset_ne d k k0 _ hkk]
            exact ⟨m, hm⟩
          · intro hn v hv
            rw [aget_aset_ne d k k0 _ hkk] at hv
            rw [hn] at hv
            cases hv
          · intro l m' hl hm'
            rw [aget_aset_ne d k k0 _ hkk] at hm'
            rw [hl] at hm'
            simp at hm'

/-- Witness for C7: the one-shot `x/c3.wav` promotes the plain-list
bucket `p_x`, keeping its entry under `"unpitched"`. -/
theorem c7_bucket_shape_invariant_witness :
    (∃ p', contribOf (strL "p") (strL "x/c3.wav") = Contrib.pitchC (strL "p_x") p') ∧
      aget [(strL "unpitched", [strL "a.wav"]), (strL "c3", [strL "x/c3.wav"])]
        (strL "unpitched") = some [strL "a.wav"] :=
  (c7_bucket_shape_invariant (strL "p") [(strL "p_x", BVal.lst [strL "a.wav"])]
      [(strL "p_x",
        BVal.dict [(strL "unpitched", [strL "a.wav"]), (strL "c3", [strL "x/c3.wav"])])]
      (strL "x/c3.wav") (strL "p_x") rfl).2.2
    [strL "a.wav"]
    [(strL "unpitched", [strL "a.wav"]), (strL "c3", [strL "x/c3.wav"])]
    (by decide) (by decide)

/-! ### More association-list and dedup-append lemmas -/

/-- Membership after a dedup append. -/
theorem appendUnique_mem (l : List Str) (r x : Str) :
    x ∈ appendUnique l r ↔ x ∈ l ∨ x = r := by
  unfold appendUnique
  split
  · rename_i hm
    constructor
    · exact Or.inl
    · rintro (hx | rfl)
      · exact hx
      · exact hm
  · simp

/-- Dedup append keeps lists duplicate-free. -/
theorem appendUnique_nodup {l : List Str} (r : Str) (h : l.Nodup) :
    (appendUnique l r).Nodup := by
  unfold appendUnique
  split
  · exact h
  · rename_i hm
    simp only [List.nodup_append, List.nodup_cons, List.nodup_nil]
    refine ⟨h, by simp, ?_⟩
    intro a ha
    simp only [List.mem_singleton]
    rintro rfl
    exact hm ha

/-- Lookup in a concatenation tries the left part first. -/
theorem aget_append {α : Type} (m₁ m₂ : List (Str × α)) (k : Str) :
    aget (m₁ ++ m₂) k =
      match aget m₁ k with
      | some v => some v
      | none => aget m₂ k := by
  induction m₁ with
  | nil => simp [aget]
  | cons kv t ih =>
    obtain ⟨k', v'⟩ := kv
    by_cases he : k' = k
    · simp only [List.cons_append, aget, if_pos he]
    · simp only [List.cons_append, aget, if_neg he]
      exact ih

/-- Key set of a dict append. -/
theorem dictAppend_keys (m : List (Str × List Str)) (p rel : Str) :
    (dictAppend m p rel).map Prod.fst =
      if p ∈ m.map Prod.fst then m.map Prod.fst else m.map Prod.fst ++ [p] := by
  unfold dictAppend
  cases hp : aget m p with
  | some pl =>
    rw [keys_aset]
  | none =>
    have hmem : p ∉ m.map Prod.fst := (aget_eq_none_iff m p).mp hp
    rw [if_neg hmem]
    simp

/-- Dict append preserves duplicate-free keys. -/
theorem dictAppend_keys_nodup {m : List (Str × List Str)} (p rel : Str)
    (h : (m.map Prod.fst).Nodup) : ((dictAppend m p rel).map Prod.fst).Nodup := by
  rw [dictAppend_keys]
  split
  · exact h
  · rename_i hm
    simp only [List.nodup_append, List.nodup_cons, List.nodup_nil]
    refine ⟨h, by simp, ?_⟩
    intro a ha
    simp only [List.mem_singleton]
    rintro rfl
    exact hm ha

/-- Reading the appended key back from a dict append, existing case. -/
theorem dictAppend_get_self_some {m : List (Str × List Str)} {p : Str} {pl : List Str}
    (rel : Str) (h : aget m p = some pl) :
    aget (dictAppend m p rel) p = some (appendUnique pl rel) := by
  unfold dictAppend
  rw [h]
  exact aget_aset_self m p (appendUnique pl rel)

/-- Reading the appended key back from a dict append, fresh case. -/
theorem dictAppend_get_self_none {m : List (Str × List Str)} {p : Str} (rel : Str)
    (h : aget m p = none) : aget (dictAppend m p rel) p = some [rel] := by
  unfold dictAppend
  rw [h]
  rw [aget_append]
  rw [h]
  simp only [aget]
  exact if_pos trivial

/-- A dict append leaves other keys alone. -/
theorem dictAppend_get_ne {m : List (Str × List Str)} {p p' : Str} (rel : Str)
    (h : p' ≠ p) : aget (dictAppend m p rel) p' = aget m p' := by
  unfold dictAppend
  cases hp : aget m p with
  | some pl => exact aget_aset_ne m p' p _ (fun he => h he.symm)
  | none =>
    rw [aget_append]
    cases hp' : aget m p' with
    | some v => rfl
    | none =>
      simp only [aget]
      rw [if_neg (fun he => h he.symm)]

/-! ### Pitch labels are never loop-classified paths -/

/-- Characters that can occur in a normalized root: the letters a–g
and the sharp sign. -/
def isRootChar (ch : Char) : Bool := (97 ≤ ch.toNat ∧ ch.toNat ≤ 103) ∨ ch.toNat = 35

/-- Code point of a character built from a valid code point. -/
theorem char_toNat_ofNat (n : Nat) (h : n.isValidChar) : (Char.ofNat n).toNat = n := by
  simp only [Char.ofNat, dif_pos h]
  simp [Char.ofNatAux, Char.toNat, UInt32.toNat, Nat.isValidChar, UInt32.ofNat']

/-- Character order gives code-point order. -/
theorem charLe_toNat {a b : Char} (h : a ≤ b) : a.toNat ≤ b.toNat := h

/-- Characters are equal when their code points are. -/
theorem char_ne_of_toNat_ne {a b : Char} (h : a.toNat ≠ b.toNat) : a ≠ b := by
  rintro rfl
  exact h rfl

/-- Lowercasing leaves a non-uppercase character alone. -/
theorem lcChar_id {ch : Char} (h : ¬(65 ≤ ch.toNat ∧ ch.toNat ≤ 90)) : lcChar ch = ch := by
  unfold lcChar
  rw [if_neg]
  rintro ⟨h1, h2⟩
  exact h ⟨charLe_toNat h1, charLe_toNat h2⟩

/-- Lowercasing a pitch letter gives a root character. -/
theorem lcChar_rootChar_of_keyLetter {ch : Char} (h : isKeyLetter ch = true) :
    isRootChar (lcChar ch) = true := by
  simp only [isKeyLetter, decide_eq_true_eq] at h
  simp only [isRootChar, decide_eq_true_eq]
  rcases h with ⟨h1, h2⟩ | ⟨h1, h2⟩
  · have hn1 := charLe_toNat h1
    have hn2 := charLe_toNat h2
    have hA : (65 : Nat) ≤ ch.toNat := hn1
    have hG : ch.toNat ≤ 71 := hn2
    unfold lcChar
    rw [if_pos ⟨h1, by
      have : ch.toNat ≤ 90 := by omega
      exact this⟩]
    rw [char_toNat_ofNat _ (by left; omega)]
    left
    omega
  · have hn1 := charLe_toNat h1
    have hn2 := charLe_toNat h2
    have ha : (97 : Nat) ≤ ch.toNat := hn1
    have hg : ch.toNat ≤ 103 := hn2
    rw [lcChar_id (by omega)]
    left
    omega

/-- Lowercasing an accidental gives a root character. -/
theorem lcChar_rootChar_of_acc {ch : Char} (h : isAcc ch = true) :
    isRootChar (lcChar ch) = true := by
  simp only [isAcc, decide_eq_true_eq] at h
  rcases h with rfl | rfl <;> decide

/-- Every character of an enharmonic-table value is a root character. -/
theorem SHARP2FLAT_val_chars {n v : Str} (h : aget SHARP2FLAT n = some v) :
    ∀ ch ∈ v, isRootChar ch = true := by
  simp only [SHARP2FLAT, aget] at h
  split_ifs at h <;> (cases h; decide)

/-- Every character of a normalized note is a root character, when
the lowercased input consists of root characters. -/
theorem normalize_note_chars {x : Str} (hx : ∀ ch ∈ x, isRootChar (lcChar ch) = true) :
    ∀ ch ∈ normalize_note x, isRootChar ch = true := by
  simp only [normalize_note]
  split
  · cases ht : aget SHARP2FLAT (lc x) with
    | some v =>
      intro ch hch
      exact SHARP2FLAT_val_chars ht ch hch
    | none =>
      intro ch hch
      simp only [lc, List.mem_map] at hch
      obtain ⟨a, ha, rfl⟩ := hch
      exact hx a ha
  · intro ch hch
    simp only [lc, List.mem_map] at hch
    obtain ⟨a, ha, rfl⟩ := hch
    exact hx a ha

/-- The letter and accidental captured by the octave grammar. -/
theorem kwoCore_fields {l : Str} {c : Char} {a : Option Char} {d : Char}
    (h : kwoCore l = some (c, a, d)) :
    isKeyLetter c = true ∧ ∀ x, a = some x → isAcc x = true := by
  match l with
  | [] => cases h
  | [x] => cases h
  | [x, y] =>
    simp only [kwoCore] at h
    split at h
    · rename_i hc
      cases h
      exact ⟨hc.1, by rintro x ⟨⟩⟩
    · cases h
  | x :: y :: z :: rest =>
    simp only [kwoCore] at h
    split at h
    · rename_i hl
      split at h
      · rename_i hc
        cases h
        exact ⟨hl, by rintro w hw; cases hw; exact hc.1⟩
      · split at h
        · cases h
          exact ⟨hl, by rintro w ⟨⟩⟩
        · cases h
    · cases h

/-- The letter and accidental captured by the bare grammar. -/
theorem ktCore_fields {l : Str} {c : Char} {a : Option Char} {q : Option Str}
    (h : ktCore l = some (c, a, q)) :
    isKeyLetter c = true ∧ ∀ x, a = some x → isAcc x = true := by
  match l with
  | [] => cases h
  | [c0] =>
    simp only [ktCore] at h
    split at h
    · rename_i hl
      cases h
      exact ⟨hl, by rintro w hw; cases hw⟩
    · cases h
  | c0 :: a0 :: rest2 =>
    simp only [ktCore] at h
    split at h
    · rename_i hl
      by_cases ha : isAcc a0 = true
      · rw [if_pos ha] at h
        cases hq : ktQual rest2 with
        | some q' =>
          rw [hq] at h
          cases h
          exact ⟨hl, by rintro w hw; cases hw; exact ha⟩
        | none =>
          rw [hq] at h
          cases hq2 : ktQual (a0 :: rest2) with
          | some q' =>
            rw [hq2] at h
            cases h
            exact ⟨hl, by rintro w hw; cases hw⟩
          | none => rw [hq2] at h; cases h
      · rw [if_neg ha] at h
        cases hq : ktQual (a0 :: rest2) with
        | some q' =>
          rw [hq] at h
          cases h
          exact ⟨hl, by rintro w hw; cases hw⟩
        | none => rw [hq] at h; cases h
    · cases h

/-- Every character of an extracted root is a root character. -/
theorem get_key_root_chars {stem : Str} {ki : KeyInfo} (h : get_key stem = some ki) :
    ∀ ch ∈ ki.root, isRootChar ch = true := by
  simp only [get_key] at h
  cases h1 : reSearch kwoBnd kwoCore (lc stem) with
  | some m =>
    obtain ⟨c, a, d⟩ := m
    rw [h1] at h
    cases h
    obtain ⟨l, hl⟩ := reSearch_imp_core kwoBnd kwoCore (lc stem) _ h1
    obtain ⟨hlet, hacc⟩ := kwoCore_fields hl
    refine normalize_note_chars ?_
    intro ch hch
    rcases List.mem_cons.mp hch with rfl | hch
    · exact lcChar_rootChar_of_keyLetter hlet
    · cases a with
      | none => cases hch
      | some x =>
        have hx : ch = x := by simpa using hch
        subst hx
        exact lcChar_rootChar_of_acc (hacc ch rfl)
  | none =>
    rw [h1] at h
    cases h2 : reSearch isDelim ktCore (lc stem) with
    | some m =>
      obtain ⟨c, a, qq⟩ := m
      rw [h2] at h
      cases h
      obtain ⟨l, hl⟩ := reSearch_imp_core isDelim ktCore (lc stem) _ h2
      obtain ⟨hlet, hacc⟩ := ktCore_fields hl
      refine normalize_note_chars ?_
      intro ch hch
      rcases List.mem_cons.mp hch with rfl | hch
      · exact lcChar_rootChar_of_keyLetter hlet
      · cases a with
        | none => cases hch
        | some x =>
          have hx : ch = x := by simpa using hch
          subst hx
          exact lcChar_rootChar_of_acc (hacc ch rfl)
    | none => rw [h2] at h; cases h

/-- An extracted root is never empty. -/
theorem get_key_root_pos {stem : Str} {ki : KeyInfo} (h : get_key stem = some ki) :
    1 ≤ ki.root.length := by
  simp only [get_key] at h
  cases h1 : reSearch kwoBnd kwoCore (lc stem) with
  | some m =>
    obtain ⟨c, a, d⟩ := m
    rw [h1] at h
    cases h
    simp only [normalize_note]
    split
    · cases ht : aget SHARP2FLAT (lc (c :: a.toList)) with
      | some v => rw [SHARP2FLAT_val_len ht]; omega
      | none => simp [lc]
    · simp [lc]
  | none =>
    rw [h1] at h
    cases h2 : reSearch isDelim ktCore (lc stem) with
    | some m =>
      obtain ⟨c, a, qq⟩ := m
      rw [h2] at h
      cases h
      simp only [normalize_note]
      split
      · cases ht : aget SHARP2FLAT (lc (c :: a.toList)) with
        | some v => rw [SHARP2FLAT_val_len ht]; omega
        | none => simp [lc]
      · simp [lc]
    | none => rw [h2] at h; cases h

/-- The one-character decimal form of a small number. -/
theorem natStr_digit {n : Nat} (h : n ≤ 9) : ∃ d, natStr n = [d] ∧ isDig d = true := by
  interval_cases n
  · exact ⟨ '0', rfl, by decide⟩
  · exact ⟨ '1', rfl, by decide⟩
  · exact ⟨ '2', rfl, by decide⟩
  · exact ⟨ '3', rfl, by decide⟩
  · exact ⟨ '4', rfl, by decide⟩
  · exact ⟨ '5', rfl, by decide⟩
  · exact ⟨ '6', rfl, by decide⟩
  · exact ⟨ '7', rfl, by decide⟩
  · exact ⟨ '8', rfl, by decide⟩
  · exact ⟨ '9', rfl, by decide⟩

/-- Structure of a pitch label: one or two root characters followed by
one digit. -/
theorem pitchOf_structure {stem : Str} {ki : KeyInfo} (h : get_key stem = some ki) :
    ∃ r d, pitchOf ki = r ++ [d] ∧ 1 ≤ r.length ∧ r.length ≤ 2 ∧
      (∀ ch ∈ r, isRootChar ch = true) ∧ isDig d = true := by
  obtain ⟨hlen, hoct⟩ := get_key_shape h
  have hchars := get_key_root_chars h
  have hpos := get_key_root_pos h
  unfold pitchOf
  cases ho : ki.oct with
  | none => exact ⟨ki.root, '4', rfl, hpos, hlen, hchars, by decide⟩
  | some n =>
    obtain ⟨d, hd, hdig⟩ := natStr_digit (hoct n ho)
    refine ⟨ki.root, d, ?_, hpos, hlen, hchars, hdig⟩
    show ki.root ++ natStr n = ki.root ++ [d]
    rw [hd]

/-- A slash-free string is a single path segment. -/
theorem splitSlash_no_slash {s : Str} (h : ∀ ch ∈ s, ch ≠ '/') : splitSlash s = [s] := by
  induction s with
  | nil => rfl
  | cons c t ih =>
    simp only [splitSlash]
    rw [if_neg (h c (List.mem_cons_self _ _))]
    rw [ih (fun ch hch => h ch (List.mem_cons_of_mem _ hch))]

/-- takeWhile keeps everything when the predicate holds throughout. -/
theorem takeWhile_all {α : Type} (p : α → Bool) :
    ∀ l : List α, (∀ a ∈ l, p a = true) → l.takeWhile p = l := by
  intro l
  induction l with
  | nil => intro _; rfl
  | cons c t ih =>
    intro h
    rw [List.takeWhile_cons, if_pos (h c (List.mem_cons_self _ _))]
    rw [ih (fun a ha => h a (List.mem_cons_of_mem _ ha))]

/-- A dot-free file name is its own stem. -/
theorem stemOfName_no_dot {name : Str} (h : ∀ ch ∈ name, ch ≠ '.') :
    stemOfName name = name := by
  simp only [stemOfName]
  have ht : name.reverse.takeWhile (fun c => c ≠ '.') = name.reverse := by
    refine takeWhile_all _ _ ?_
    intro a ha
    simp only [decide_eq_true_eq]
    exact h a (List.mem_reverse.mp ha)
  rw [ht]
  rw [if_neg]
  rintro ⟨_, h2⟩
  simp only [List.length_reverse] at h2
  omega

/-- Lowercasing is the identity on strings without uppercase letters. -/
theorem lc_fix {s : Str} (h : ∀ ch ∈ s, lcChar ch = ch) : lc s = s := by
  induction s with
  | nil => rfl
  | cons c t ih =>
    simp only [lc, List.map_cons]
    rw [h c (List.mem_cons_self _ _)]
    have := ih (fun ch hch => h ch (List.mem_cons_of_mem _ hch))
    simp only [lc] at this
    rw [this]

/-- Collapsing cannot lengthen a string. -/
theorem collapseNonF_length_le : ∀ (f : Nat) (s : Str), (collapseNonF f s).length ≤ s.length := by
  intro f
  induction f with
  | zero => intro s; simp [collapseNonF]
  | succ f ih =>
    intro s
    match s with
    | [] => simp [collapseNonF]
    | c :: t =>
      simp only [collapseNonF]
      have hd := (List.dropWhile_suffix (l := t) (fun d => ! isLowerAlnum d)).sublist.length_le
      split
      · simp only [List.length_cons]
        have := ih t
        omega
      · simp only [List.length_cons]
        have := ih (t.dropWhile (fun d => ! isLowerAlnum d))
        omega

/-- A slug is never longer than its input. -/
theorem slug_length_le (s : Str) : (slug s).length ≤ s.length := by
  have hlen : (lc s).length = s.length := by simp [lc]
  unfold slug stripUnders
  set A := collapseNon (lc s) with hA
  set B := A.dropWhile (fun c => c = '_') with hB
  set C := B.reverse.dropWhile (fun c => c = '_') with hC
  have h1 : A.length ≤ (lc s).length := collapseNonF_length_le _ _
  have h2 : B.length ≤ A.length :=
    (List.dropWhile_suffix (l := A) (fun c => c = '_')).sublist.length_le
  have h3 : C.length ≤ B.reverse.length :=
    (List.dropWhile_suffix (l := B.reverse) (fun c => c = '_')).sublist.length_le
  simp only [List.length_reverse] at h3 ⊢
  omega

/-- A short pitch-label-shaped string is never loop-classified: it is
one slash-free segment whose slug is too short to be a loops folder,
and its single trailing digit admits no tempo token. -/
theorem label_not_loop {p r : Str} {d : Char} (hp : p = r ++ [d])
    (h1 : 1 ≤ r.length) (h2 : r.length ≤ 2)
    (hr : ∀ ch ∈ r, isRootChar ch = true) (hd : isDig d = true) :
    is_loops_folder p = false ∧ get_bpm (stemOfPath p) = none := by
  have hchars : ∀ ch ∈ p, isRootChar ch = true ∨ isDig ch = true := by
    intro ch hch
    rw [hp] at hch
    rcases List.mem_append.mp hch with hch | hch
    · exact Or.inl (hr ch hch)
    · rcases List.mem_singleton.mp hch with rfl
      exact Or.inr hd
  have hnum : ∀ ch ∈ p, (97 ≤ ch.toNat ∧ ch.toNat ≤ 103) ∨ ch.toNat = 35 ∨
      (48 ≤ ch.toNat ∧ ch.toNat ≤ 57) := by
    intro ch hch
    rcases hchars ch hch with hc | hc
    · simp only [isRootChar, decide_eq_true_eq] at hc
      rcases hc with hc | hc
      · exact Or.inl hc
      · exact Or.inr (Or.inl hc)
    · simp only [isDig, decide_eq_true_eq] at hc
      exact Or.inr (Or.inr hc)
  have hnoslash : ∀ ch ∈ p, ch ≠ '/' := by
    intro ch hch
    refine char_ne_of_toNat_ne ?_
    have := hnum ch hch
    show ch.toNat ≠ 47
    omega
  have hnodot : ∀ ch ∈ p, ch ≠ '.' := by
    intro ch hch
    refine char_ne_of_toNat_ne ?_
    have := hnum ch hch
    show ch.toNat ≠ 46
    omega
  have hlcfix : ∀ ch ∈ p, lcChar ch = ch := by
    intro ch hch
    refine lcChar_id ?_
    have := hnum ch hch
    omega
  have hsplit : splitSlash p = [p] := splitSlash_no_slash hnoslash
  have hlast : lastSeg p = p := by
    simp [lastSeg, hsplit]
  have hstem : stemOfPath p = p := by
    simp only [stemOfPath, hlast]
    exact stemOfName_no_dot hnodot
  constructor
  · cases hb : is_loops_folder p with
    | false => rfl
    | true =>
      exfalso
      obtain ⟨seg, hseg, hsl⟩ := (is_loops_folder_iff p).mp hb
      rw [hsplit] at hseg
      rw [List.mem_singleton.mp hseg] at hsl
      have hplen : p.length = r.length + 1 := by rw [hp]; simp
      have hle := slug_length_le p
      rcases hsl with he | he
      · rw [he] at hle; simp [strL] at hle; omega
      · rw [he] at hle; simp [strL] at hle; omega
  · rw [hstem]
    have hlc : lc p = p := lc_fix hlcfix
    have hdelim : ∀ ch ∈ r, isDelim ch = false := by
      intro ch hch
      have := hnum ch (by rw [hp]; exact List.mem_append_left _ hch)
      simp only [isDelim, decide_eq_false_iff_not]
      rintro (rfl | rfl | rfl) <;> (revert this; decide)
    have hdig : ∀ ch ∈ r, isDig ch = false := by
      intro ch hch
      have h35 : isRootChar ch = true := hr ch hch
      simp only [isRootChar, decide_eq_true_eq] at h35
      simp only [isDig, decide_eq_false_iff_not]
      omega
    have htok : bpmTokens p = [] := by
      match r, h1, h2 with
      | [c1], _, _ =>
        have hd1 := hdig c1 (List.mem_singleton_self c1)
        have hdel1 := hdelim c1 (List.mem_singleton_self c1)
        rw [hp]
        show bpmTokensP none [c1, d] = []
        simp [bpmTokensP, bpmTokenHead, hd1, hdel1]
      | [c1, c2], _, _ =>
        have hd1 := hdig c1 (by simp)
        have hdel2 := hdelim c2 (by simp)
        rw [hp]
        show bpmTokensP none [c1, c2, d] = []
        have hdel1 := hdelim c1 (by simp)
        simp [bpmTokensP, bpmTokenHead, hd1, hdel1, hdel2]
    simp only [get_bpm]
    rw [hlc, bpmFinditer_eq_tokens, htok]
    rfl

/-- The reserved label `unpitched` is never loop-classified. -/
theorem unpitched_not_loop (pfx k : Str) :
    contribOf pfx (strL "unpitched") ≠ Contrib.loopC k := by
  intro h
  simp only [contribOf] at h
  rw [if_neg (by decide)] at h
  cases hk : get_key (stemOfPath (strL "unpitched")) with
  | some ki => rw [hk] at h; cases h
  | none => rw [hk] at h; cases h

/-- A loop-classified path is never a key of a pitch map: it is
neither `unpitched` nor any extractable pitch label. -/
theorem loop_rel_ne_label {pfx rel k : Str} (h : contribOf pfx rel = Contrib.loopC k) :
    rel ≠ strL "unpitched" ∧ ∀ stem' ki, get_key stem' = some ki → rel ≠ pitchOf ki := by
  constructor
  · rintro rfl
    exact unpitched_not_loop pfx k h
  · rintro stem' ki hki rfl
    obtain ⟨r, d, hp, h1, h2, hr, hd⟩ := pitchOf_structure hki
    obtain ⟨hlf, hbpm⟩ := label_not_loop hp h1 h2 hr hd
    simp only [contribOf] at h
    rw [if_neg] at h
    · cases hk : get_key (stemOfPath (pitchOf ki)) with
      | some ki' => rw [hk] at h; cases h
      | none => rw [hk] at h; cases h
    · rintro (hc | ⟨hb, _⟩)
      · rw [hlf] at hc; cases hc
      · rw [hbpm] at hb; cases hb

/-! ### The run invariant: bucket state determined by contributions -/

/-- Some processed file contributes to the bucket key. -/
def keyUsed (pfx : Str) (files : List Str) (k : Str) : Prop :=
  ∃ rel ∈ files, (contribOf pfx rel).bkey = k

/-- Some processed file contributes the pitch label to the key. -/
def pitchUsed (pfx : Str) (files : List Str) (k p : Str) : Prop :=
  ∃ rel ∈ files, contribOf pfx rel = Contrib.pitchC k p

/-- The path is a pitched contribution to the key at the label. -/
def pitchMem (pfx : Str) (files : List Str) (k p rel : Str) : Prop :=
  rel ∈ files ∧ contribOf pfx rel = Contrib.pitchC k p

/-- The path is a list-type (loop or unpitched) contribution to the
key. -/
def listMem (pfx : Str) (files : List Str) (k rel : Str) : Prop :=
  rel ∈ files ∧
    (contribOf pfx rel = Contrib.loopC k ∨ contribOf pfx rel = Contrib.unpitchC k)

/-- Some processed file contributes a pitch to the key. -/
def anyPitched (pfx : Str) (files : List Str) (k : Str) : Prop :=
  ∃ p, pitchUsed pfx files k p

/-- Some processed file contributes a list entry to the key. -/
def anyList (pfx : Str) (files : List Str) (k : Str) : Prop :=
  ∃ rel, listMem pfx files k rel

/-- The invariant tying the bucket state to the multiset of processed
files: keys and shapes are determined by the contributions, every
list is duplicate-free, and membership in every list is exactly the
corresponding contribution predicate. -/
structure RunInv (pfx : Str) (files : List Str) (d : Buckets) : Prop where
  nodupKeys : (d.map Prod.fst).Nodup
  keyIff : ∀ k, (∃ v, aget d k = some v) ↔ keyUsed pfx files k
  shapeIff : ∀ k v, aget d k = some v → ((∃ m, v = BVal.dict m) ↔ anyPitched pfx files k)
  lstChar : ∀ k l, aget d k = some (BVal.lst l) →
    l.Nodup ∧ ∀ rel, rel ∈ l ↔ listMem pfx files k rel
  dictChar : ∀ k m, aget d k = some (BVal.dict m) →
    (m.map Prod.fst).Nodup ∧
    (∀ p, p ≠ strL "unpitched" → (p ∈ m.map Prod.fst ↔ pitchUsed pfx files k p)) ∧
    ((strL "unpitched") ∈ m.map Prod.fst ↔ anyList pfx files k) ∧
    (∀ p pl, aget m p = some pl → pl.Nodup ∧
      (p = strL "unpitched" → ∀ rel, rel ∈ pl ↔ listMem pfx files k rel) ∧
      (p ≠ strL "unpitched" → ∀ rel, rel ∈ pl ↔ pitchMem pfx files k p rel))

/-- The empty state satisfies the invariant for no files. -/
theorem RunInv_nil (pfx : Str) : RunInv pfx [] [] := by
  refine ⟨by simp, ?_, ?_, ?_, ?_⟩
  · intro k
    constructor
    · rintro ⟨v, hv⟩; cases hv
    · rintro ⟨rel, hrel, _⟩; cases hrel
  · intro k v hv; cases hv
  · intro k l hl; cases hl
  · intro k m hm; cases hm

/-- How each contribution predicate grows when one more file is
processed. -/
theorem keyUsed_append (pfx : Str) (fs : List Str) (r0 k : Str) :
    keyUsed pfx (fs ++ [r0]) k ↔ keyUsed pfx fs k ∨ (contribOf pfx r0).bkey = k := by
  unfold keyUsed
  constructor
  · rintro ⟨rel, hrel, hk⟩
    rcases List.mem_append.mp hrel with hrel | hrel
    · exact Or.inl ⟨rel, hrel, hk⟩
    · rcases List.mem_singleton.mp hrel with rfl
      exact Or.inr hk
  · rintro (⟨rel, hrel, hk⟩ | hk)
    · exact ⟨rel, List.mem_append_left _ hrel, hk⟩
    · exact ⟨r0, List.mem_append_right _ (List.mem_singleton_self _), hk⟩

/-- Pitch usage after one more file. -/
theorem pitchUsed_append (pfx : Str) (fs : List Str) (r0 k p : Str) :
    pitchUsed pfx (fs ++ [r0]) k p ↔
      pitchUsed pfx fs k p ∨ contribOf pfx r0 = Contrib.pitchC k p := by
  unfold pitchUsed
  constructor
  · rintro ⟨rel, hrel, hk⟩
    rcases List.mem_append.mp hrel with hrel | hrel
    · exact Or.inl ⟨rel, hrel, hk⟩
    · rcases List.mem_singleton.mp hrel with rfl
      exact Or.inr hk
  · rintro (⟨rel, hrel, hk⟩ | hk)
    · exact ⟨rel, List.mem_append_left _ hrel, hk⟩
    · exact ⟨r0, List.mem_append_right _ (List.mem_singleton_self _), hk⟩

/-- Pitched membership after one more file. -/
theorem pitchMem_append (pfx : Str) (fs : List Str) (r0 k p rel : Str) :
    pitchMem pfx (fs ++ [r0]) k p rel ↔
      pitchMem pfx fs k p rel ∨ (rel = r0 ∧ contribOf pfx r0 = Contrib.pitchC k p) := by
  unfold pitchMem
  constructor
  · rintro ⟨hrel, hk⟩
    rcases List.mem_append.mp hrel with hrel | hrel
    · exact Or.inl ⟨hrel, hk⟩
    · rcases List.mem_singleton.mp hrel with rfl
      exact Or.inr ⟨rfl, hk⟩
  · rintro (⟨hrel, hk⟩ | ⟨rfl, hk⟩)
    · exact ⟨List.mem_append_left _ hrel, hk⟩
    · exact ⟨List.mem_append_right _ (List.mem_singleton_self _), hk⟩

/-- List-type membership after one more file. -/
theorem listMem_append (pfx : Str) (fs : List Str) (r0 k rel : Str) :
    listMem pfx (fs ++ [r0]) k rel ↔
      listMem pfx fs k rel ∨
        (rel = r0 ∧ (contribOf pfx r0 = Contrib.loopC k ∨
          contribOf pfx r0 = Contrib.unpitchC k)) := by
  unfold listMem
  constructor
  · rintro ⟨hrel, hk⟩
    rcases List.mem_append.mp hrel with hrel | hrel
    · exact Or.inl ⟨hrel, hk⟩
    · rcases List.mem_singleton.mp hrel with rfl
      exact Or.inr ⟨rfl, hk⟩
  · rintro (⟨hrel, hk⟩ | ⟨rfl, hk⟩)
    · exact ⟨List.mem_append_left _ hrel, hk⟩
    · exact ⟨List.mem_append_right _ (List.mem_singleton_self _), hk⟩

/-- Pitched-shape evidence after one more file. -/
theorem anyPitched_append (pfx : Str) (fs : List Str) (r0 k : Str) :
    anyPitched pfx (fs ++ [r0]) k ↔
      anyPitched pfx fs k ∨ ∃ p, contribOf pfx r0 = Contrib.pitchC k p := by
  unfold anyPitched
  constructor
  · rintro ⟨p, hp⟩
    rcases (pitchUsed_append pfx fs r0 k p).mp hp with hp | hp
    · exact Or.inl ⟨p, hp⟩
    · exact Or.inr ⟨p, hp⟩
  · rintro (⟨p, hp⟩ | ⟨p, hp⟩)
    · exact ⟨p, (pitchUsed_append pfx fs r0 k p).mpr (Or.inl hp)⟩
    · exact ⟨p, (pitchUsed_append pfx fs r0 k p).mpr (Or.inr hp)⟩

/-- List-entry evidence after one more file. -/
theorem anyList_append (pfx : Str) (fs : List Str) (r0 k : Str) :
    anyList pfx (fs ++ [r0]) k ↔
      anyList pfx fs k ∨ contribOf pfx r0 = Contrib.loopC k ∨
        contribOf pfx r0 = Contrib.unpitchC k := by
  unfold anyList
  constructor
  · rintro ⟨rel, hrel⟩
    rcases (listMem_append pfx fs r0 k rel).mp hrel with hrel | ⟨_, hrel⟩
    · exact Or.inl ⟨rel, hrel⟩
    · exact Or.inr hrel
  · rintro (⟨rel, hrel⟩ | hrel)
    · exact ⟨rel, (listMem_append pfx fs r0 k rel).mpr (Or.inl hrel)⟩
    · exact ⟨r0, (listMem_append pfx fs r0 k r0).mpr (Or.inr ⟨rfl, hrel⟩)⟩

/-- Every pitch usage of a key is a key usage. -/
theorem pitchUsed_keyUsed {pfx : Str} {fs : List Str} {k p : Str}
    (h : pitchUsed pfx fs k p) : keyUsed pfx fs k := by
  obtain ⟨rel, hrel, hc⟩ := h
  exact ⟨rel, hrel, by rw [hc]; rfl⟩

/-- Every list-type membership of a key is a key usage. -/
theorem listMem_keyUsed {pfx : Str} {fs : List Str} {k rel : Str}
    (h : listMem pfx fs k rel) : keyUsed pfx fs k := by
  obtain ⟨hrel, hc | hc⟩ := h
  · exact ⟨rel, hrel, by rw [hc]; rfl⟩
  · exact ⟨rel, hrel, by rw [hc]; rfl⟩

/-- Pitched-shape evidence for a key is a key usage. -/
theorem anyPitched_keyUsed {pfx : Str} {fs : List Str} {k : Str}
    (h : anyPitched pfx fs k) : keyUsed pfx fs k := by
  obtain ⟨p, hp⟩ := h
  exact pitchUsed_keyUsed hp

/-- List-entry evidence for a key is a key usage. -/
theorem anyList_keyUsed {pfx : Str} {fs : List Str} {k : Str}
    (h : anyList pfx fs k) : keyUsed pfx fs k := by
  obtain ⟨rel, hrel⟩ := h
  exact listMem_keyUsed hrel

/-- Pitched membership witnesses pitch usage. -/
theorem pitchMem_pitchUsed {pfx : Str} {fs : List Str} {k p rel : Str}
    (h : pitchMem pfx fs k p rel) : pitchUsed pfx fs k p :=
  ⟨rel, h.1, h.2⟩

/-- A key used by some file while no file contributes a pitch to it
receives a list-type contribution. -/
theorem anyList_of_keyUsed_not_pitched {pfx : Str} {fs : List Str} {k : Str}
    (hk : keyUsed pfx fs k) (hnp : ¬ anyPitched pfx fs k) : anyList pfx fs k := by
  obtain ⟨rel, hrel, hb⟩ := hk
  cases hc : contribOf pfx rel with
  | loopC k'' =>
    rw [hc] at hb
    exact ⟨rel, hrel, Or.inl (hb ▸ hc)⟩
  | pitchC k'' p'' =>
    rw [hc] at hb
    exact absurd ⟨p'', rel, hrel, hb ▸ hc⟩ hnp
  | unpitchC k'' =>
    rw [hc] at hb
    exact ⟨rel, hrel, Or.inr (hb ▸ hc)⟩

/-- When a bucket key is absent from the state, the invariant rules
out every earlier usage of it. -/
theorem aget_none_not_keyUsed {pfx : Str} {fs : List Str} {d : Buckets} {k : Str}
    (inv : RunInv pfx fs d) (h : aget d k = none) : ¬ keyUsed pfx fs k := by
  intro hk
  obtain ⟨v, hv⟩ := (inv.keyIff k).mpr hk
  rw [h] at hv
  cases hv

/-- Key usage is untouched by a file whose contribution goes to a
different bucket key. -/
theorem keyUsed_append_ne {pfx : Str} {fs : List Str} {r0 k : Str}
    (hb : (contribOf pfx r0).bkey ≠ k) :
    keyUsed pfx (fs ++ [r0]) k ↔ keyUsed pfx fs k := by
  rw [keyUsed_append]
  exact or_iff_left hb

/-- Pitch usage is untouched by a file bound for another key. -/
theorem pitchUsed_append_ne {pfx : Str} {fs : List Str} {r0 k p : Str}
    (hb : (contribOf pfx r0).bkey ≠ k) :
    pitchUsed pfx (fs ++ [r0]) k p ↔ pitchUsed pfx fs k p := by
  rw [pitchUsed_append]
  exact or_iff_left (fun h => hb (by rw [h]; rfl))

/-- Pitched membership is untouched by a file bound for another key. -/
theorem pitchMem_append_ne {pfx : Str} {fs : List Str} {r0 k p rel : Str}
    (hb : (contribOf pfx r0).bkey ≠ k) :
    pitchMem pfx (fs ++ [r0]) k p rel ↔ pitchMem pfx fs k p rel := by
  rw [pitchMem_append]
  exact or_iff_left (fun h => hb (by rw [h.2]; rfl))

/-- List-type membership is untouched by a file bound for another
key. -/
theorem listMem_append_ne {pfx : Str} {fs : List Str} {r0 k rel : Str}
    (hb : (contribOf pfx r0).bkey ≠ k) :
    listMem pfx (fs ++ [r0]) k rel ↔ listMem pfx fs k rel := by
  rw [listMem_append]
  refine or_iff_left ?_
  rintro ⟨_, h | h⟩ <;> exact hb (by rw [h]; rfl)

/-- Pitched-shape evidence is untouched by a file bound for another
key. -/
theorem anyPitched_append_ne {pfx : Str} {fs : List Str} {r0 k : Str}
    (hb : (contribOf pfx r0).bkey ≠ k) :
    anyPitched pfx (fs ++ [r0]) k ↔ anyPitched pfx fs k := by
  rw [anyPitched_append]
  refine or_iff_left ?_
  rintro ⟨p, h⟩
  exact hb (by rw [h]; rfl)

/-- List-entry evidence is untouched by a file bound for another
key. -/
theorem anyList_append_ne {pfx : Str} {fs : List Str} {r0 k : Str}
    (hb : (contribOf pfx r0).bkey ≠ k) :
    anyList pfx (fs ++ [r0]) k ↔ anyList pfx fs k := by
  rw [anyList_append]
  refine or_iff_left ?_
  rintro (h | h) <;> exact hb (by rw [h]; rfl)

/-- Generic preservation skeleton: replacing the bucket of the active
key with a value that satisfies the appended-file characterizations
preserves the invariant, all other keys transferring unchanged. -/
theorem RunInv_aset {pfx : Str} {fs : List Str} {r0 k : Str} {d : Buckets} {v : BVal}
    (inv : RunInv pfx fs d)
    (hb : (contribOf pfx r0).bkey = k)
    (hshape : (∃ m, v = BVal.dict m) ↔ anyPitched pfx (fs ++ [r0]) k)
    (hlst : ∀ l, v = BVal.lst l →
      l.Nodup ∧ ∀ rel, rel ∈ l ↔ listMem pfx (fs ++ [r0]) k rel)
    (hdict : ∀ m, v = BVal.dict m →
      (m.map Prod.fst).Nodup ∧
      (∀ p, p ≠ strL "unpitched" → (p ∈ m.map Prod.fst ↔ pitchUsed pfx (fs ++ [r0]) k p)) ∧
      ((strL "unpitched") ∈ m.map Prod.fst ↔ anyList pfx (fs ++ [r0]) k) ∧
      (∀ p pl, aget m p = some pl → pl.Nodup ∧
        (p = strL "unpitched" → ∀ rel, rel ∈ pl ↔ listMem pfx (fs ++ [r0]) k rel) ∧
        (p ≠ strL "unpitched" → ∀ rel, rel ∈ pl ↔ pitchMem pfx (fs ++ [r0]) k p rel))) :
    RunInv pfx (fs ++ [r0]) (aset d k v) := by
  have hbne : ∀ k', k' ≠ k → (contribOf pfx r0).bkey ≠ k' :=
    fun k' hk he => hk ((hb.symm.trans he).symm)
  refine ⟨keys_aset_nodup k v inv.nodupKeys, ?_, ?_, ?_, ?_⟩
  · intro k'
    by_cases hk : k' = k
    · subst hk
      rw [aget_aset_self]
      exact ⟨fun _ => (keyUsed_append pfx fs r0 k').mpr (Or.inr hb), fun _ => ⟨v, rfl⟩⟩
    · rw [aget_aset_ne d k' k v (fun he => hk he.symm)]
      rw [keyUsed_append_ne (hbne k' hk)]
      exact inv.keyIff k'
  · intro k' v' hv'
    by_cases hk : k' = k
    · subst hk
      rw [aget_aset_self] at hv'
      cases hv'
      exact hshape
    · rw [aget_aset_ne d k' k v (fun he => hk he.symm)] at hv'
      rw [anyPitched_append_ne (hbne k' hk)]
      exact inv.shapeIff k' v' hv'
  · intro k' l hl
    by_cases hk : k' = k
    · subst hk
      rw [aget_aset_self] at hl
      cases hl
      exact hlst l rfl
    · rw [aget_aset_ne d k' k v (fun he => hk he.symm)] at hl
      obtain ⟨hnd, hmem⟩ := inv.lstChar k' l hl
      refine ⟨hnd, fun rel => ?_⟩
      rw [listMem_append_ne (hbne k' hk)]
      exact hmem rel
  · intro k' m hm
    by_cases hk : k' = k
    · subst hk
      rw [aget_aset_self] at hm
      cases hm
      exact hdict m rfl
    · rw [aget_aset_ne d k' k v (fun he => hk he.symm)] at hm
      obtain ⟨hnd, hpk, huk, hent⟩ := inv.dictChar k' m hm
      refine ⟨hnd, ?_, ?_, ?_⟩
      · intro p hp
        rw [pitchUsed_append_ne (hbne k' hk)]
        exact hpk p hp
      · rw [anyList_append_ne (hbne k' hk)]
        exact huk
      · intro p pl hpl
        obtain ⟨hnd2, hu, hnu⟩ := hent p pl hpl
        refine ⟨hnd2, ?_, ?_⟩
        · intro hp rel
          rw [listMem_append_ne (hbne k' hk)]
          exact hu hp rel
        · intro hp rel
          rw [pitchMem_append_ne (hbne k' hk)]
          exact hnu hp rel

/-- Preservation for a list-shaped append: when the active file is a
loop or unpitched contribution and the target bucket currently holds
the list characterized by the invariant (or nothing, with the empty
list), appending the file preserves the invariant. -/
theorem RunInv_listAppend {pfx : Str} {fs : List Str} {r0 k : Str} {d : Buckets}
    {l : List Str} (inv : RunInv pfx fs d)
    (hc : contribOf pfx r0 = Contrib.loopC k ∨ contribOf pfx r0 = Contrib.unpitchC k)
    (hnodup : l.Nodup) (hmem : ∀ rel, rel ∈ l ↔ listMem pfx fs k rel)
    (hnp : ¬ anyPitched pfx fs k) :
    RunInv pfx (fs ++ [r0]) (aset d k (BVal.lst (appendUnique l r0))) := by
  have hb : (contribOf pfx r0).bkey = k := by
    rcases hc with hc | hc <;> (rw [hc]; rfl)
  have hnp2 : ¬ anyPitched pfx (fs ++ [r0]) k := by
    rw [anyPitched_append]
    rintro (h | ⟨p, h⟩)
    · exact hnp h
    · rcases hc with hc | hc <;> (rw [hc] at h; cases h)
  refine RunInv_aset inv hb ?_ ?_ ?_
  · constructor
    · rintro ⟨m, hm⟩
      cases hm
    · intro h
      exact absurd h hnp2
  · intro l' hl'
    cases hl'
    refine ⟨appendUnique_nodup r0 hnodup, fun rel => ?_⟩
    rw [appendUnique_mem, hmem rel, listMem_append]
    constructor
    · rintro (h | rfl)
      · exact Or.inl h
      · exact Or.inr ⟨rfl, hc⟩
    · rintro (h | ⟨rfl, _⟩)
      · exact Or.inl h
      · exact Or.inr rfl
  · intro m hm
    cases hm

/-- Preservation for a loop contribution: the list cases append, and
the dict case is unreachable because a loop path can never equal a
key already stored in a pitch map. -/
theorem RunInv_loop {pfx : Str} {fs : List Str} {r0 k : Str} {d d' : Buckets}
    (inv : RunInv pfx fs d) (hc : contribOf pfx r0 = Contrib.loopC k)
    (hstep : loopAppend d k r0 = Except.ok d') :
    RunInv pfx (fs ++ [r0]) d' := by
  simp only [loopAppend] at hstep
  split at hstep
  · rename_i haget
    injection hstep with hd
    subst hd
    have hnk := aget_none_not_keyUsed inv haget
    refine RunInv_listAppend inv (Or.inl hc) List.nodup_nil ?_ ?_
    · intro rel
      simp only [List.not_mem_nil, false_iff]
      exact fun h => hnk (listMem_keyUsed h)
    · exact fun h => hnk (anyPitched_keyUsed h)
  · rename_i l haget
    injection hstep with hd
    subst hd
    obtain ⟨hnd, hmem⟩ := inv.lstChar k l haget
    refine RunInv_listAppend inv (Or.inl hc) hnd hmem ?_
    intro h
    obtain ⟨m, hm⟩ := (inv.shapeIff k (BVal.lst l) haget).mpr h
    cases hm
  · rename_i m haget
    split at hstep
    · rename_i hmemk
      obtain ⟨hne_u, hne_p⟩ := loop_rel_ne_label hc
      obtain ⟨-, hpk, -, -⟩ := inv.dictChar k m haget
      by_cases hu : r0 = strL "unpitched"
      · exact absurd hu hne_u
      · obtain ⟨rel, hrel, hcp⟩ := (hpk r0 hu).mp hmemk
        obtain ⟨ki, hki, hpe, -⟩ := contribOf_pitch_inv hcp
        exact absurd hpe (hne_p _ ki hki)
    · cases hstep

/-- Key membership after a dict-shaped aggregation step. -/
theorem dictAppend_keys_mem (m : List (Str × List Str)) (p rel p' : Str) :
    p' ∈ (dictAppend m p rel).map Prod.fst ↔ p' ∈ m.map Prod.fst ∨ p' = p := by
  rw [dictAppend_keys]
  split
  · rename_i hm
    constructor
    · exact Or.inl
    · rintro (h | rfl)
      · exact h
      · exact hm
  · rw [List.mem_append, List.mem_singleton]

/-- Preservation for an unpitched one-shot contribution: a dict bucket
files the path under the `unpitched` entry, a list bucket or a missing
bucket appends to the plain list. -/
theorem RunInv_unpitch {pfx : Str} {fs : List Str} {r0 k : Str} {d : Buckets}
    (inv : RunInv pfx fs d) (hc : contribOf pfx r0 = Contrib.unpitchC k) :
    RunInv pfx (fs ++ [r0]) (oneshotUnpitched d k r0) := by
  have hb : (contribOf pfx r0).bkey = k := by rw [hc]; rfl
  simp only [oneshotUnpitched]
  split
  · rename_i m haget
    obtain ⟨hnd, hpk, huk, hent⟩ := inv.dictChar k m haget
    have hAP : anyPitched pfx fs k := (inv.shapeIff k _ haget).mp ⟨m, rfl⟩
    refine RunInv_aset inv hb ?_ ?_ ?_
    · exact iff_of_true ⟨_, rfl⟩ ((anyPitched_append pfx fs r0 k).mpr (Or.inl hAP))
    · intro l hl
      cases hl
    · intro m' hm'
      injection hm' with hm'
      subst hm'
      refine ⟨dictAppend_keys_nodup _ _ hnd, ?_, ?_, ?_⟩
      · intro p hp
        rw [dictAppend_keys_mem]
        rw [pitchUsed_append]
        constructor
        · rintro (h | rfl)
          · exact Or.inl ((hpk p hp).mp h)
          · exact absurd rfl hp
        · rintro (h | h)
          · exact Or.inl ((hpk p hp).mpr h)
          · rw [hc] at h
            cases h
      · refine iff_of_true ?_ ?_
        · rw [dictAppend_keys_mem]
          exact Or.inr rfl
        · exact (anyList_append pfx fs r0 k).mpr (Or.inr (Or.inr hc))
      · intro p pl hpl
        by_cases hp : p = strL "unpitched"
        · subst hp
          cases haget2 : aget m (strL "unpitched") with
          | some ul =>
            rw [dictAppend_get_self_some r0 haget2] at hpl
            injection hpl with hpl
            subst hpl
            obtain ⟨ulnd, hub, -⟩ := hent _ ul haget2
            refine ⟨appendUnique_nodup r0 ulnd, fun _ rel => ?_, fun hne => absurd rfl hne⟩
            rw [appendUnique_mem, hub rfl rel, listMem_append]
            constructor
            · rintro (h | rfl)
              · exact Or.inl h
              · exact Or.inr ⟨rfl, Or.inr hc⟩
            · rintro (h | ⟨rfl, -⟩)
              · exact Or.inl h
              · exact Or.inr rfl
          | none =>
            rw [dictAppend_get_self_none r0 haget2] at hpl
            injection hpl with hpl
            subst hpl
            have hnoL : ¬ anyList pfx fs k := fun h =>
              absurd (huk.mpr h) ((aget_eq_none_iff m _).mp haget2)
            refine ⟨List.nodup_singleton r0, fun _ rel => ?_, fun hne => absurd rfl hne⟩
            rw [List.mem_singleton, listMem_append]
            constructor
            · rintro rfl
              exact Or.inr ⟨rfl, Or.inr hc⟩
            · rintro (h | ⟨rfl, -⟩)
              · exact absurd ⟨rel, h⟩ hnoL
              · rfl
        · rw [dictAppend_get_ne r0 hp] at hpl
          obtain ⟨plnd, -, hnb⟩ := hent p pl hpl
          refine ⟨plnd, fun hpe => absurd hpe hp, fun _ rel => ?_⟩
          have hno : ¬ (rel = r0 ∧ contribOf pfx r0 = Contrib.pitchC k p) := by
            rintro ⟨-, h⟩
            rw [hc] at h
            cases h
          rw [pitchMem_append, or_iff_left hno]
          exact hnb hp rel
  · rename_i l haget
    obtain ⟨hnd, hmem⟩ := inv.lstChar k l haget
    refine RunInv_listAppend inv (Or.inr hc) hnd hmem ?_
    intro h
    obtain ⟨m, hm⟩ := (inv.shapeIff k (BVal.lst l) haget).mpr h
    cases hm
  · rename_i haget
    have hnk := aget_none_not_keyUsed inv haget
    refine RunInv_listAppend inv (Or.inr hc) List.nodup_nil ?_ ?_
    · intro rel
      simp only [List.not_mem_nil, false_iff]
      exact fun h => hnk (listMem_keyUsed h)
    · exact fun h => hnk (anyPitched_keyUsed h)

/-- Preservation for a pitched one-shot contribution: the bucket is
promoted to (or kept as) a pitch map and the path is appended under
its pitch label, which is never the `unpitched` entry. -/
theorem RunInv_pitch {pfx : Str} {fs : List Str} {r0 k p : Str} {d : Buckets}
    (inv : RunInv pfx fs d) (hc : contribOf pfx r0 = Contrib.pitchC k p) :
    RunInv pfx (fs ++ [r0]) (oneshotPitched d k p r0) := by
  have hb : (contribOf pfx r0).bkey = k := by rw [hc]; rfl
  obtain ⟨ki, hki, hpe, -⟩ := contribOf_pitch_inv hc
  have hp_ne : p ≠ strL "unpitched" := fun he =>
    pitchOf_ne_unpitched hki (hpe.symm.trans he)
  have hshape0 : ∀ m0 : List (Str × List Str),
      (∃ m', BVal.dict (dictAppend m0 p r0) = BVal.dict m') ↔
        anyPitched pfx (fs ++ [r0]) k :=
    fun m0 => iff_of_true ⟨_, rfl⟩
      ((anyPitched_append pfx fs r0 k).mpr (Or.inr ⟨p, hc⟩))
  simp only [oneshotPitched]
  cases haget : aget d k with
  | none =>
    simp only [ensure_map]
    have hnk := aget_none_not_keyUsed inv haget
    refine RunInv_aset inv hb (hshape0 []) (fun l hl => by cases hl) ?_
    intro m' hm'
    injection hm' with hm'
    subst hm'
    refine ⟨dictAppend_keys_nodup _ _ (by simp), ?_, ?_, ?_⟩
    · intro p' hp'
      rw [dictAppend_keys_mem, pitchUsed_append]
      constructor
      · rintro (h | rfl)
        · simp at h
        · exact Or.inr hc
      · rintro (h | h)
        · exact absurd (pitchUsed_keyUsed h) hnk
        · rw [hc] at h
          injection h with h1 h2
          exact Or.inr h2.symm
    · refine iff_of_false ?_ ?_
      · rw [dictAppend_keys_mem]
        rintro (h | h)
        · simp at h
        · exact hp_ne h.symm
      · rw [anyList_append]
        rintro (h | h | h)
        · exact hnk (anyList_keyUsed h)
        · rw [hc] at h
          cases h
        · rw [hc] at h
          cases h
    · intro p' pl hpl
      by_cases hp' : p' = p
      · subst hp'
        have h0 : aget ([] : List (Str × List Str)) p' = none := rfl
        rw [dictAppend_get_self_none r0 h0] at hpl
        injection hpl with hpl
        subst hpl
        refine ⟨List.nodup_singleton r0, fun hpe2 => absurd hpe2 hp_ne, fun _ rel => ?_⟩
        rw [List.mem_singleton, pitchMem_append]
        constructor
        · rintro rfl
          exact Or.inr ⟨rfl, hc⟩
        · rintro (h | ⟨rfl, -⟩)
          · exact absurd (pitchUsed_keyUsed (pitchMem_pitchUsed h)) hnk
          · rfl
      · rw [dictAppend_get_ne r0 hp'] at hpl
        simp only [aget] at hpl
        cases hpl
  | some v =>
    cases v with
    | lst l =>
      simp only [ensure_map]
      obtain ⟨lnd, lmem⟩ := inv.lstChar k l haget
      have hnp : ¬ anyPitched pfx fs k := by
        intro h
        obtain ⟨m, hm⟩ := (inv.shapeIff k (BVal.lst l) haget).mpr h
        cases hm
      have hAL : anyList pfx fs k :=
        anyList_of_keyUsed_not_pitched ((inv.keyIff k).mp ⟨_, haget⟩) hnp
      have hu_ne : strL "unpitched" ≠ p := fun he => hp_ne he.symm
      have hgu : aget [(strL "unpitched", l)] p = none := by
        simp only [aget]
        rw [if_neg hu_ne]
      refine RunInv_aset inv hb (hshape0 _) (fun l' hl' => by cases hl') ?_
      intro m' hm'
      injection hm' with hm'
      subst hm'
      refine ⟨dictAppend_keys_nodup _ _ (by simp), ?_, ?_, ?_⟩
      · intro p' hp'
        rw [dictAppend_keys_mem, pitchUsed_append]
        constructor
        · rintro (h | rfl)
          · simp at h
            exact absurd h hp'
          · exact Or.inr hc
        · rintro (h | h)
          · exact absurd ⟨p', h⟩ hnp
          · rw [hc] at h
            injection h with h1 h2
            exact Or.inr h2.symm
      · refine iff_of_true ?_ ((anyList_append pfx fs r0 k).mpr (Or.inl hAL))
        rw [dictAppend_keys_mem]
        exact Or.inl (by simp)
      · intro p' pl hpl
        by_cases hp' : p' = p
        · subst hp'
          rw [dictAppend_get_self_none r0 hgu] at hpl
          injection hpl with hpl
          subst hpl
          refine ⟨List.nodup_singleton r0, fun hpe2 => absurd hpe2 hp_ne, fun _ rel => ?_⟩
          rw [List.mem_singleton, pitchMem_append]
          constructor
          · rintro rfl
            exact Or.inr ⟨rfl, hc⟩
          · rintro (h | ⟨rfl, -⟩)
            · exact absurd ⟨p', pitchMem_pitchUsed h⟩ hnp
            · rfl
        · rw [dictAppend_get_ne r0 hp'] at hpl
          simp only [aget] at hpl
          by_cases hpu : strL "unpitched" = p'
          · rw [if_pos hpu] at hpl
            injection hpl with hpl
            subst hpl
            refine ⟨lnd, fun _ rel => ?_, fun hne => absurd hpu.symm hne⟩
            have hno : ¬ (rel = r0 ∧ (contribOf pfx r0 = Contrib.loopC k ∨
                contribOf pfx r0 = Contrib.unpitchC k)) := by
              rintro ⟨-, h | h⟩ <;> (rw [hc] at h; cases h)
            rw [listMem_append, or_iff_left hno]
            exact lmem rel
          · rw [if_neg hpu] at hpl
            cases hpl
    | dict m =>
      simp only [ensure_map]
      obtain ⟨hnd, hpk, huk, hent⟩ := inv.dictChar k m haget
      refine RunInv_aset inv hb (hshape0 _) (fun l' hl' => by cases hl') ?_
      intro m' hm'
      injection hm' with hm'
      subst hm'
      refine ⟨dictAppend_keys_nodup _ _ hnd, ?_, ?_, ?_⟩
      · intro p' hp'
        rw [dictAppend_keys_mem, pitchUsed_append]
        constructor
        · rintro (h | rfl)
          · exact Or.inl ((hpk p' hp').mp h)
          · exact Or.inr hc
        · rintro (h | h)
          · exact Or.inl ((hpk p' hp').mpr h)
          · rw [hc] at h
            injection h with h1 h2
            exact Or.inr h2.symm
      · rw [dictAppend_keys_mem, anyList_append]
        constructor
        · rintro (h | h)
          · exact Or.inl (huk.mp h)
          · exact absurd h.symm hp_ne
        · rintro (h | h | h)
          · exact Or.inl (huk.mpr h)
          · rw [hc] at h
            cases h
          · rw [hc] at h
            cases h
      · intro p' pl hpl
        by_cases hp' : p' = p
        · subst hp'
          cases haget2 : aget m p' with
          | some pl0 =>
            rw [dictAppend_get_self_some r0 haget2] at hpl
            injection hpl with hpl
            subst hpl
            obtain ⟨nd0, -, hnb0⟩ := hent p' pl0 haget2
            refine ⟨appendUnique_nodup r0 nd0, fun hpe2 => absurd hpe2 hp_ne,
              fun _ rel => ?_⟩
            rw [appendUnique_mem, hnb0 hp_ne rel, pitchMem_append]
            constructor
            · rintro (h | rfl)
              · exact Or.inl h
              · exact Or.inr ⟨rfl, hc⟩
            · rintro (h | ⟨rfl, -⟩)
              · exact Or.inl h
              · exact Or.inr rfl
          | none =>
            rw [dictAppend_get_self_none r0 haget2] at hpl
            injection hpl with hpl
            subst hpl
            have hnoP : ¬ pitchUsed pfx fs k p' := fun h =>
              absurd ((hpk p' hp_ne).mpr h) ((aget_eq_none_iff m p').mp haget2)
            refine ⟨List.nodup_singleton r0, fun hpe2 => absurd hpe2 hp_ne,
              fun _ rel => ?_⟩
            rw [List.mem_singleton, pitchMem_append]
            constructor
            · rintro rfl
              exact Or.inr ⟨rfl, hc⟩
            · rintro (h | ⟨rfl, -⟩)
              · exact absurd (pitchMem_pitchUsed h) hnoP
              · rfl
        · rw [dictAppend_get_ne r0 hp'] at hpl
          obtain ⟨nd, hub, hnbb⟩ := hent p' pl hpl
          refine ⟨nd, ?_, ?_⟩
          · intro hpu rel
            have hno : ¬ (rel = r0 ∧ (contribOf pfx r0 = Contrib.loopC k ∨
                contribOf pfx r0 = Contrib.unpitchC k)) := by
              rintro ⟨-, h | h⟩ <;> (rw [hc] at h; cases h)
            rw [listMem_append, or_iff_left hno]
            exact hub hpu rel
          · intro hpu rel
            have hno : ¬ (rel = r0 ∧ contribOf pfx r0 = Contrib.pitchC k p') := by
              rintro ⟨-, h⟩
              rw [hc] at h
              injection h with h1 h2
              exact hp' h2.symm
            rw [pitchMem_append, or_iff_left hno]
            exact hnbb hpu rel

/-- One successful loop iteration preserves the invariant, extending
the processed files by the new one. -/
theorem RunInv_step {pfx : Str} {fs : List Str} {d d' : Buckets} {r0 : Str}
    (inv : RunInv pfx fs d) (hstep : step pfx d r0 = Except.ok d') :
    RunInv pfx (fs ++ [r0]) d' := by
  rw [step_eq_applyContrib] at hstep
  cases hc : contribOf pfx r0 with
  | loopC k =>
    rw [hc] at hstep
    simp only [applyContrib] at hstep
    exact RunInv_loop inv hc hstep
  | pitchC k p =>
    rw [hc] at hstep
    simp only [applyContrib] at hstep
    injection hstep with hd
    exact hd ▸ RunInv_pitch inv hc
  | unpitchC k =>
    rw [hc] at hstep
    simp only [applyContrib] at hstep
    injection hstep with hd
    exact hd ▸ RunInv_unpitch inv hc

/-- Folding the loop over a suffix of files preserves the invariant
accumulated over the already-processed ones. -/
theorem RunInv_run_aux (pfx : Str) (fs : List Str) :
    ∀ (acc : List Str) (d0 d : Buckets), RunInv pfx acc d0 →
      List.foldlM (fun d rel => step pfx d rel) d0 fs = Except.ok d →
      RunInv pfx (acc ++ fs) d := by
  induction fs with
  | nil =>
    intro acc d0 d h0 hrun
    simp only [List.foldlM_nil] at hrun
    injection hrun with hd
    rw [List.append_nil]
    exact hd ▸ h0
  | cons r rest ih =>
    intro acc d0 d h0 hrun
    simp only [List.foldlM_cons] at hrun
    cases hstep : step pfx d0 r with
    | error e =>
      rw [hstep] at hrun
      cases hrun
    | ok d1 =>
      rw [hstep] at hrun
      replace hrun : List.foldlM (fun d rel => step pfx d rel) d1 rest = Except.ok d := hrun
      have h2 := ih (acc ++ [r]) d1 d (RunInv_step h0 hstep) hrun
      rw [List.append_assoc, List.singleton_append] at h2
      exact h2

/-- A completing run of the classification loop satisfies the
invariant over the full file list. -/
theorem RunInv_run {pfx : Str} {files : List Str} {d : Buckets}
    (h : runBuckets pfx files = Except.ok d) : RunInv pfx files d := by
  simp only [runBuckets] at h
  have h2 := RunInv_run_aux pfx files [] [] d (RunInv_nil pfx) h
  rwa [List.nil_append] at h2

/-! ### Assembly is determined by the invariant views -/

/-- In an association list with duplicate-free keys, membership of a
pair is lookup of its key. -/
theorem aget_of_mem_nodup {α : Type} {l : List (Str × α)} {k : Str} {v : α}
    (hnd : (l.map Prod.fst).Nodup) (h : (k, v) ∈ l) : aget l k = some v := by
  induction l with
  | nil => cases h
  | cons kv t ih =>
    obtain ⟨k0, v0⟩ := kv
    simp only [List.map_cons, List.nodup_cons] at hnd
    obtain ⟨hk0, hnd⟩ := hnd
    rcases List.mem_cons.mp h with h | h
    · injection h with h1 h2
      subst h1
      subst h2
      simp only [aget]
      exact if_pos trivial
    · have hne : k0 ≠ k := by
        rintro rfl
        exact hk0 (List.mem_map.mpr ⟨(k0, v), h, rfl⟩)
      simp only [aget]
      rw [if_neg hne]
      exact ih hnd h

/-- Writing the sorted buckets over an initial manifest keeps the key
list duplicate-free. -/
theorem keys_foldl_aset_nodup (d : Buckets) :
    ∀ init : List (Str × JVal), (init.map Prod.fst).Nodup →
      ((d.foldl (fun man kv => aset man kv.1 (sortedBVal kv.2)) init).map Prod.fst).Nodup := by
  induction d with
  | nil => exact fun init h => h
  | cons kv t ih =>
    intro init h
    simp only [List.foldl_cons]
    exact ih _ (keys_aset_nodup kv.1 (sortedBVal kv.2) h)

/-- A key absent from the buckets keeps its initial manifest entry
through the bucket-writing fold. -/
theorem aget_foldl_aset_none (d : Buckets) :
    ∀ (init : List (Str × JVal)) (k : Str), aget d k = none →
      aget (d.foldl (fun man kv => aset man kv.1 (sortedBVal kv.2)) init) k =
        aget init k := by
  induction d with
  | nil => exact fun init k _ => rfl
  | cons kv t ih =>
    intro init k h
    obtain ⟨k0, v0⟩ := kv
    simp only [aget] at h
    split at h
    · cases h
    · rename_i hk
      simp only [List.foldl_cons]
      rw [ih _ k h]
      exact aget_aset_ne init k k0 (sortedBVal v0) hk

/-- A bucket key's manifest entry after the bucket-writing fold is its
sorted bucket value. -/
theorem aget_foldl_aset_some (d : Buckets) :
    ∀ (init : List (Str × JVal)) (k : Str) (v : BVal), (d.map Prod.fst).Nodup →
      aget d k = some v →
      aget (d.foldl (fun man kv => aset man kv.1 (sortedBVal kv.2)) init) k =
        some (sortedBVal v) := by
  induction d with
  | nil => intro init k v _ h; cases h
  | cons kv t ih =>
    intro init k v hnd h
    obtain ⟨k0, v0⟩ := kv
    simp only [List.map_cons, List.nodup_cons] at hnd
    obtain ⟨hk0, hnd⟩ := hnd
    simp only [aget] at h
    simp only [List.foldl_cons]
    split at h
    · rename_i hk
      subst hk
      injection h with h2
      subst h2
      have ht : aget t k0 = none := (aget_eq_none_iff t k0).mpr hk0
      rw [aget_foldl_aset_none t _ k0 ht]
      exact aget_aset_self init k0 (sortedBVal v0)
    · rename_i hk
      exact ih _ k v hnd h

/-- `sortMap` keeps the (sorted) key sequence of the pitch map. -/
theorem sort_map_keys (m : List (Str × List Str)) :
    (sort_map m).map Prod.fst = (pySortBy m).map Prod.fst := by
  unfold sort_map
  induction pySortBy m with
  | nil => rfl
  | cons kv t ih => simp only [List.map_cons, ih]

/-- Membership in a sorted pitch map, for duplicate-free keys: the
key's bucket, sorted. -/
theorem mem_sort_map {m : List (Str × List Str)} (hnd : (m.map Prod.fst).Nodup)
    (p : Str) (sl : List Str) :
    (p, sl) ∈ sort_map m ↔ ∃ pl, aget m p = some pl ∧ sl = pySort pl := by
  unfold sort_map
  rw [List.mem_map]
  constructor
  · rintro ⟨⟨p0, pl0⟩, hmem, heq⟩
    injection heq with h1 h2
    subst h1
    subst h2
    exact ⟨pl0, aget_of_mem_nodup hnd ((pySortBy_perm m).mem_iff.mp hmem), rfl⟩
  · rintro ⟨pl, hget, rfl⟩
    exact ⟨(p, pl), (pySortBy_perm m).mem_iff.mpr (aget_some_mem hget), rfl⟩

/-- Two pitch maps with duplicate-free keys and identical sorted
buckets at every key have the same sorted form. -/
theorem sort_map_eq_of_get {m₁ m₂ : List (Str × List Str)}
    (h₁ : (m₁.map Prod.fst).Nodup) (h₂ : (m₂.map Prod.fst).Nodup)
    (hg : ∀ p, Option.map pySort (aget m₁ p) = Option.map pySort (aget m₂ p)) :
    sort_map m₁ = sort_map m₂ := by
  have k₁ : ((sort_map m₁).map Prod.fst).Nodup := by
    rw [sort_map_keys]
    exact ((pySortBy_perm m₁).map Prod.fst).nodup_iff.mpr h₁
  have k₂ : ((sort_map m₂).map Prod.fst).Nodup := by
    rw [sort_map_keys]
    exact ((pySortBy_perm m₂).map Prod.fst).nodup_iff.mpr h₂
  have hmm : ∀ x, x ∈ sort_map m₁ ↔ x ∈ sort_map m₂ := by
    rintro ⟨p, sl⟩
    rw [mem_sort_map h₁, mem_sort_map h₂]
    have hgp := hg p
    constructor
    · rintro ⟨pl, hget, rfl⟩
      rw [hget] at hgp
      cases hget2 : aget m₂ p with
      | none =>
        rw [hget2] at hgp
        cases hgp
      | some pl2 =>
        rw [hget2] at hgp
        injection hgp with hgp
        exact ⟨pl2, rfl, hgp⟩
    · rintro ⟨pl, hget, rfl⟩
      rw [hget] at hgp
      cases hget2 : aget m₁ p with
      | none =>
        rw [hget2] at hgp
        cases hgp
      | some pl1 =>
        rw [hget2] at hgp
        injection hgp with hgp
        exact ⟨pl1, rfl, hgp.symm⟩
  have hp : (sort_map m₁).Perm (sort_map m₂) :=
    (List.perm_ext_iff_of_nodup k₁.of_map k₂.of_map).mpr hmm
  refine sortedByStrictEq hp ?_ ?_
  · show (List.map _ (pySortBy m₁)).Pairwise _
    exact (pySortBy_pairwise_lt h₁).map _ (fun a b h => h)
  · show (List.map _ (pySortBy m₂)).Pairwise _
    exact (pySortBy_pairwise_lt h₂).map _ (fun a b h => h)

/-- Key usage only depends on the multiset of processed files. -/
theorem keyUsed_perm {pfx : Str} {fs₁ fs₂ : List Str} (hp : fs₁.Perm fs₂) (k : Str) :
    keyUsed pfx fs₁ k ↔ keyUsed pfx fs₂ k := by
  unfold keyUsed
  constructor
  · rintro ⟨rel, hrel, hk⟩
    exact ⟨rel, hp.mem_iff.mp hrel, hk⟩
  · rintro ⟨rel, hrel, hk⟩
    exact ⟨rel, hp.mem_iff.mpr hrel, hk⟩

/-- Pitch usage only depends on the multiset of processed files. -/
theorem pitchUsed_perm {pfx : Str} {fs₁ fs₂ : List Str} (hp : fs₁.Perm fs₂)
    (k p : Str) : pitchUsed pfx fs₁ k p ↔ pitchUsed pfx fs₂ k p := by
  unfold pitchUsed
  constructor
  · rintro ⟨rel, hrel, hk⟩
    exact ⟨rel, hp.mem_iff.mp hrel, hk⟩
  · rintro ⟨rel, hrel, hk⟩
    exact ⟨rel, hp.mem_iff.mpr hrel, hk⟩

/-- Pitched membership only depends on the multiset of processed
files. -/
theorem pitchMem_perm {pfx : Str} {fs₁ fs₂ : List Str} (hp : fs₁.Perm fs₂)
    (k p rel : Str) : pitchMem pfx fs₁ k p rel ↔ pitchMem pfx fs₂ k p rel := by
  unfold pitchMem
  rw [hp.mem_iff]

/-- List-type membership only depends on the multiset of processed
files. -/
theorem listMem_perm {pfx : Str} {fs₁ fs₂ : List Str} (hp : fs₁.Perm fs₂)
    (k rel : Str) : listMem pfx fs₁ k rel ↔ listMem pfx fs₂ k rel := by
  unfold listMem
  rw [hp.mem_iff]

/-- Pitched-shape evidence only depends on the multiset of processed
files. -/
theorem anyPitched_perm {pfx : Str} {fs₁ fs₂ : List Str} (hp : fs₁.Perm fs₂)
    (k : Str) : anyPitched pfx fs₁ k ↔ anyPitched pfx fs₂ k := by
  unfold anyPitched
  constructor
  · rintro ⟨p, h⟩
    exact ⟨p, (pitchUsed_perm hp k p).mp h⟩
  · rintro ⟨p, h⟩
    exact ⟨p, (pitchUsed_perm hp k p).mpr h⟩

/-- List-entry evidence only depends on the multiset of processed
files. -/
theorem anyList_perm {pfx : Str} {fs₁ fs₂ : List Str} (hp : fs₁.Perm fs₂)
    (k : Str) : anyList pfx fs₁ k ↔ anyList pfx fs₂ k := by
  unfold anyList
  constructor
  · rintro ⟨rel, h⟩
    exact ⟨rel, (listMem_perm hp k rel).mp h⟩
  · rintro ⟨rel, h⟩
    exact ⟨rel, (listMem_perm hp k rel).mpr h⟩

/-- Two bucket states built from the same multiset of files (in any
two orders that complete) assemble to the same manifest. -/
theorem assemble_eq_of_inv {pfx base : Str} {files₁ files₂ : List Str}
    {d₁ d₂ : Buckets} (hperm : files₁.Perm files₂)
    (i₁ : RunInv pfx files₁ d₁) (i₂ : RunInv pfx files₂ d₂) :
    assemble base d₁ = assemble base d₂ := by
  have hval : ∀ k, Option.map sortedBVal (aget d₁ k) =
      Option.map sortedBVal (aget d₂ k) := by
    intro k
    cases h1 : aget d₁ k with
    | none =>
      cases h2 : aget d₂ k with
      | none => rfl
      | some v₂ =>
        have hk1 := (keyUsed_perm hperm k).mpr ((i₂.keyIff k).mp ⟨v₂, h2⟩)
        obtain ⟨v₁, hv₁⟩ := (i₁.keyIff k).mpr hk1
        rw [h1] at hv₁
        cases hv₁
    | some v₁ =>
      cases h2 : aget d₂ k with
      | none =>
        have hk2 := (keyUsed_perm hperm k).mp ((i₁.keyIff k).mp ⟨v₁, h1⟩)
        obtain ⟨v₂, hv₂⟩ := (i₂.keyIff k).mpr hk2
        rw [h2] at hv₂
        cases hv₂
      | some v₂ =>
        simp only [Option.map_some']
        have hsv : sortedBVal v₁ = sortedBVal v₂ := by
          cases v₁ with
          | lst l₁ =>
            cases v₂ with
            | lst l₂ =>
              obtain ⟨nd₁, mem₁⟩ := i₁.lstChar k l₁ h1
              obtain ⟨nd₂, mem₂⟩ := i₂.lstChar k l₂ h2
              show JVal.arr (pySort l₁) = JVal.arr (pySort l₂)
              rw [pySort_eq_of_mem nd₁ nd₂ (fun x =>
                (mem₁ x).trans ((listMem_perm hperm k x).trans (mem₂ x).symm))]
            | dict m₂ =>
              have hap := (anyPitched_perm hperm k).mpr
                ((i₂.shapeIff k _ h2).mp ⟨m₂, rfl⟩)
              obtain ⟨m, hm⟩ := (i₁.shapeIff k _ h1).mpr hap
              cases hm
          | dict m₁ =>
            cases v₂ with
            | lst l₂ =>
              have hap := (anyPitched_perm hperm k).mp
                ((i₁.shapeIff k _ h1).mp ⟨m₁, rfl⟩)
              obtain ⟨m, hm⟩ := (i₂.shapeIff k _ h2).mpr hap
              cases hm
            | dict m₂ =>
              obtain ⟨nd₁, hpk₁, huk₁, hent₁⟩ := i₁.dictChar k m₁ h1
              obtain ⟨nd₂, hpk₂, huk₂, hent₂⟩ := i₂.dictChar k m₂ h2
              show JVal.obj (sort_map m₁) = JVal.obj (sort_map m₂)
              rw [sort_map_eq_of_get nd₁ nd₂ ?_]
              intro p
              cases hg1 : aget m₁ p with
              | none =>
                cases hg2 : aget m₂ p with
                | none => rfl
                | some pl₂ =>
                  have hmem2 : p ∈ m₂.map Prod.fst :=
                    List.mem_map.mpr ⟨(p, pl₂), aget_some_mem hg2, rfl⟩
                  by_cases hu : p = strL "unpitched"
                  · subst hu
                    have hal := (anyList_perm hperm k).mpr (huk₂.mp hmem2)
                    exact absurd (huk₁.mpr hal) ((aget_eq_none_iff m₁ _).mp hg1)
                  · have hpu := (pitchUsed_perm hperm k p).mpr ((hpk₂ p hu).mp hmem2)
                    exact absurd ((hpk₁ p hu).mpr hpu) ((aget_eq_none_iff m₁ p).mp hg1)
              | some pl₁ =>
                cases hg2 : aget m₂ p with
                | none =>
                  have hmem1 : p ∈ m₁.map Prod.fst :=
                    List.mem_map.mpr ⟨(p, pl₁), aget_some_mem hg1, rfl⟩
                  by_cases hu : p = strL "unpitched"
                  · subst hu
                    have hal := (anyList_perm hperm k).mp (huk₁.mp hmem1)
                    exact absurd (huk₂.mpr hal) ((aget_eq_none_iff m₂ _).mp hg2)
                  · have hpu := (pitchUsed_perm hperm k p).mp ((hpk₁ p hu).mp hmem1)
                    exact absurd ((hpk₂ p hu).mpr hpu) ((aget_eq_none_iff m₂ p).mp hg2)
                | some pl₂ =>
                  obtain ⟨n₁, hu₁, hb₁⟩ := hent₁ p pl₁ hg1
                  obtain ⟨n₂, hu₂, hb₂⟩ := hent₂ p pl₂ hg2
                  simp only [Option.map_some']
                  by_cases hu : p = strL "unpitched"
                  · rw [pySort_eq_of_mem n₁ n₂ (fun x =>
                      (hu₁ hu x).trans ((listMem_perm hperm k x).trans (hu₂ hu x).symm))]
                  · rw [pySort_eq_of_mem n₁ n₂ (fun x =>
                      (hb₁ hu x).trans ((pitchMem_perm hperm k p x).trans (hb₂ hu x).symm))]
        rw [hsv]
  have hman : ∀ k,
      aget (d₁.foldl (fun man kv => aset man kv.1 (sortedBVal kv.2))
        [(strL "_base", JVal.str base)]) k =
      aget (d₂.foldl (fun man kv => aset man kv.1 (sortedBVal kv.2))
        [(strL "_base", JVal.str base)]) k := by
    intro k
    have hvk := hval k
    cases h1 : aget d₁ k with
    | none =>
      rw [h1] at hvk
      cases h2 : aget d₂ k with
      | none =>
        rw [aget_foldl_aset_none d₁ _ k h1, aget_foldl_aset_none d₂ _ k h2]
      | some v₂ =>
        rw [h2] at hvk
        cases hvk
    | some v₁ =>
      rw [h1] at hvk
      cases h2 : aget d₂ k with
      | none =>
        rw [h2] at hvk
        cases hvk
      | some v₂ =>
        rw [h2] at hvk
        simp only [Option.map_some'] at hvk
        injection hvk with hvk
        rw [aget_foldl_aset_some d₁ _ k v₁ i₁.nodupKeys h1,
          aget_foldl_aset_some d₂ _ k v₂ i₂.nodupKeys h2, hvk]
  simp only [assemble]
  have hnd₁ := keys_foldl_aset_nodup d₁ [(strL "_base", JVal.str base)] (by simp)
  have hnd₂ := keys_foldl_aset_nodup d₂ [(strL "_base", JVal.str base)] (by simp)
  refine pySortBy_eq_of_mem hnd₁ hnd₂ ?_
  rintro ⟨k, v⟩
  constructor
  · intro h
    have := aget_of_mem_nodup hnd₁ h
    rw [hman k] at this
    exact aget_some_mem this
  · intro h
    have := aget_of_mem_nodup hnd₂ h
    rw [← hman k] at this
    exact aget_some_mem this

/-! ### C1: traversal-order independence of completing runs -/

/-- C1 (amended): for a fixed multiset of discovered files, any two
processing orders on which the classification loop completes without
raising produce the identical final manifest. -/
theorem c1_completing_runs_agree {pfx base : Str} {files₁ files₂ : List Str}
    {man₁ man₂ : List (Str × JVal)} (hperm : files₁.Perm files₂)
    (h₁ : runManifest pfx base files₁ = Except.ok man₁)
    (h₂ : runManifest pfx base files₂ = Except.ok man₂) : man₁ = man₂ := by
  simp only [runManifest] at h₁ h₂
  cases hb₁ : runBuckets pfx files₁ with
  | error e =>
    rw [hb₁] at h₁
    cases h₁
  | ok d₁ =>
    rw [hb₁] at h₁
    cases hb₂ : runBuckets pfx files₂ with
    | error e =>
      rw [hb₂] at h₂
      cases h₂
    | ok d₂ =>
      rw [hb₂] at h₂
      simp only [Except.map] at h₁ h₂
      injection h₁ with h₁
      injection h₂ with h₂
      rw [← h₁, ← h₂]
      exact assemble_eq_of_inv hperm (RunInv_run hb₁) (RunInv_run hb₂)

/-- The manifest both processing orders of the C1 witness produce. -/
def C1_expected : List (Str × JVal) :=
  [(strL "_base", JVal.str (strL "u")),
   (strL "p_b", JVal.obj [(strL "c3", [strL "b_c3.wav"])]),
   (strL "p_ok", JVal.arr [strL "ok.wav"])]

/-- C1 witness: both orders of a two-file set complete and the theorem
applies, giving the same manifest. -/
theorem c1_completing_runs_agree_witness :
    ((strL "b_c3.wav") :: [strL "ok.wav"]).Perm
      ((strL "ok.wav") :: [strL "b_c3.wav"]) ∧
    runManifest (strL "p") (strL "u") [strL "b_c3.wav", strL "ok.wav"] =
      Except.ok C1_expected ∧
    runManifest (strL "p") (strL "u") [strL "ok.wav", strL "b_c3.wav"] =
      Except.ok C1_expected ∧
    C1_expected = C1_expected :=
  ⟨List.Perm.swap _ _ _, by rfl, by rfl,
    @c1_completing_runs_agree (strL "p") (strL "u")
      [strL "b_c3.wav", strL "ok.wav"] [strL "ok.wav", strL "b_c3.wav"]
      C1_expected C1_expected
      (List.Perm.swap (strL "ok.wav") (strL "b_c3.wav") []) (by rfl) (by rfl)⟩

/-! ### C8: well-formedness of the assembled manifest -/

/-- C8: in the manifest of every completing run, the top-level keys
(including `_base`) are in strictly increasing lexicographic order,
every plain path list is strictly sorted and duplicate-free, and
every pitch map has strictly sorted keys and strictly sorted,
duplicate-free path lists under them. -/
theorem c8_manifest_wellformed {pfx base : Str} {files : List Str}
    {man : List (Str × JVal)} (h : runManifest pfx base files = Except.ok man) :
    (man.map Prod.fst).Pairwise (fun a b => strLt a b = true) ∧
    ∀ k v, (k, v) ∈ man →
      (∀ l, v = JVal.arr l →
        l.Pairwise (fun a b => strLt a b = true) ∧ l.Nodup) ∧
      (∀ m, v = JVal.obj m →
        (m.map Prod.fst).Pairwise (fun a b => strLt a b = true) ∧
        ∀ p pl, (p, pl) ∈ m →
          pl.Pairwise (fun a b => strLt a b = true) ∧ pl.Nodup) := by
  simp only [runManifest] at h
  cases hb : runBuckets pfx files with
  | error e =>
    rw [hb] at h
    cases h
  | ok d =>
    rw [hb] at h
    simp only [Except.map] at h
    injection h with h
    have inv := RunInv_run hb
    subst h
    simp only [assemble]
    have hndM := keys_foldl_aset_nodup d [(strL "_base", JVal.str base)] (by simp)
    constructor
    · rw [List.pairwise_map]
      exact pySortBy_pairwise_lt hndM
    · intro k v hmem
      have hget := aget_of_mem_nodup hndM ((pySortBy_perm _).mem_iff.mp hmem)
      cases hd : aget d k with
      | none =>
        rw [aget_foldl_aset_none d _ k hd] at hget
        simp only [aget] at hget
        split at hget
        · injection hget with hget
          subst hget
          exact ⟨fun l hl => JVal.noConfusion hl, fun m hm => JVal.noConfusion hm⟩
        · cases hget
      | some bv =>
        rw [aget_foldl_aset_some d _ k bv inv.nodupKeys hd] at hget
        injection hget with hget
        cases bv with
        | lst l0 =>
          obtain ⟨nd0, -⟩ := inv.lstChar k l0 hd
          subst hget
          refine ⟨?_, fun m hm => JVal.noConfusion hm⟩
          intro l hl
          injection hl with hl
          subst hl
          exact ⟨pySort_pairwise_lt nd0, (pySort_perm l0).nodup_iff.mpr nd0⟩
        | dict m0 =>
          obtain ⟨nd0, -, -, hent⟩ := inv.dictChar k m0 hd
          subst hget
          refine ⟨fun l hl => JVal.noConfusion hl, ?_⟩
          intro m hm
          injection hm with hm
          subst hm
          constructor
          · rw [List.pairwise_map]
            show ((pySortBy m0).map _).Pairwise _
            exact (pySortBy_pairwise_lt nd0).map _ (fun a b hab => hab)
          · intro p pl hpl
            obtain ⟨pl0, hget0, rfl⟩ := (mem_sort_map nd0 p pl).mp hpl
            obtain ⟨nd1, -, -⟩ := hent p pl0 hget0
            exact ⟨pySort_pairwise_lt nd1, (pySort_perm pl0).nodup_iff.mpr nd1⟩

/-- Expected manifest of the C8 witness run. -/
def C8_expected : List (Str × JVal) :=
  [(strL "_base", JVal.str (strL "u")),
   (strL "p_loops", JVal.obj
     [(strL "c3", [strL "loops_c3.wav"]),
      (strL "unpitched", [strL "loops/pad.wav"])])]

/-- C8 witness: a concrete completing run, including a promoted pitch
map with an `unpitched` entry, to which the theorem applies. -/
theorem c8_manifest_wellformed_witness :
    runManifest (strL "p") (strL "u")
      [strL "loops/pad.wav", strL "loops_c3.wav"] = Except.ok C8_expected ∧
    ((C8_expected.map Prod.fst).Pairwise (fun a b => strLt a b = true) ∧
    ∀ k v, (k, v) ∈ C8_expected →
      (∀ l, v = JVal.arr l →
        l.Pairwise (fun a b => strLt a b = true) ∧ l.Nodup) ∧
      (∀ m, v = JVal.obj m →
        (m.map Prod.fst).Pairwise (fun a b => strLt a b = true) ∧
        ∀ p pl, (p, pl) ∈ m →
          pl.Pairwise (fun a b => strLt a b = true) ∧ pl.Nodup)) :=
  ⟨by rfl, @c8_manifest_wellformed (strL "p") (strL "u")
    [strL "loops/pad.wav", strL "loops_c3.wav"] C8_expected (by rfl)⟩
